import Mathlib

/-!
# terraform-inventory: the grouping engine of `cli.go`

A shallow embedding of `cli.go`: `appendUniq`, `gatherResources`,
`gatherAnsibleResources` and the commands `cmdList`, `cmdInventory`, `cmdHost`
with `writeLn`, `checkErr` and `output`, with the properties of the uniqueness
helper, of the five group partitions, of the orchestrator-specific projection
and of the rendering.

Modelling conventions.

* A Go `string` is a Lean `String`; Go compares strings bytewise, which for
  UTF-8 text is the lexicographic order of the code points, so `strLE a b` is
  `a.toList ≤ b.toList` (it agrees with `≤` on `String`, see `strLE_iff_le`).
* A Go `map[string]V` is an association list with distinct keys (`GoMap V`);
  `mapGet` is the lookup `m[k]`, `mapSet` the assignment `m[k] = v`. Go leaves
  the iteration order of `range m` unspecified; the embedding iterates in the
  order of the association list, and the theorems are stated about lookups.
* The standard-library routines are embedded from their definitions
  (`sort.Search`, `sort.SearchStrings`) or from their documented contract
  (`sort.Strings`: the ascending rearrangement; `sort.Sort`: some rearrangement
  that is ordered for `Less`, not necessarily stable, so the sort routine is a
  parameter, `SortRoutine`).
* `Resource`, `Output` and `state` are declared outside `cli.go`; the embedding
  takes the results of `Address()`, `Tags()`, `Attributes()`, `resources()` and
  `outputs()` as given data.
* Text that `gatherResources` writes to the standard error of the process is
  returned as a list of diagnostics.
* An `io.Writer` is a `Writer`: the text accepted so far and a script of the
  outcomes of the coming `Write` calls, so that any call may fail. `json.Marshal`
  is a parameter of the commands.
* `strings.Contains` and `strings.Replace` are embedded on the characters of the
  strings (`stringsContains`, `stringsRemoveFirst`).
-/

namespace TerraformInventory

/-! ## Strings and maps -/

/-- Go's `a <= b` on strings. -/
def strLE (a b : String) : Prop := a.toList ≤ b.toList

instance strLE.decidable : DecidableRel strLE :=
  fun a b => inferInstanceAs (Decidable (a.toList ≤ b.toList))

instance strLE.total : IsTotal String strLE := ⟨fun a b => le_total a.toList b.toList⟩

instance strLE.trans : IsTrans String strLE :=
  ⟨fun a b c (h₁ : a.toList ≤ b.toList) (h₂ : b.toList ≤ c.toList) => le_trans h₁ h₂⟩

/-- A Go `map[string]V`: an association list, keys distinct. -/
abbrev GoMap (V : Type) := List (String × V)

/-- The lookup `m[k]` with its presence flag (`v, exists := m[k]`). -/
def mapGet {V : Type} (m : GoMap V) (k : String) : Option V :=
  match m with
  | [] => none
  | (k', v) :: rest => if k' = k then some v else mapGet rest k

/-- The lookup `m[k]` of a slice-valued map: a missing key reads as the nil slice. -/
def mapGetD {V : Type} (m : GoMap (List V)) (k : String) : List V :=
  (mapGet m k).getD []

/-- The assignment `m[k] = v`. -/
def mapSet {V : Type} (m : GoMap V) (k : String) (v : V) : GoMap V :=
  match m with
  | [] => [(k, v)]
  | (k', v') :: rest => if k' = k then (k, v) :: rest else (k', v') :: mapSet rest k v

/-- The keys of a map, in iteration order. -/
def mapKeys {V : Type} (m : GoMap V) : List String := m.map Prod.fst

/-! ## The uniqueness helper -/

/-- Go's `sort.Strings`: the ascending rearrangement of the slice. -/
def sortStrings (strs : List String) : List String :=
  strs.insertionSort strLE

/-- The loop of Go's `sort.Search`: `for i < j { h := (i+j)/2; if !f(h) { i = h+1 } else { j = h } }`.
The first argument bounds the number of iterations; `j - i` iterations suffice, so the
bound `n` of `Search` is never reached (`searchLoop_fuel`, `searchLoop_spec`). -/
def searchLoop (f : Nat → Bool) : Nat → Nat → Nat → Nat
  | 0, i, _ => i
  | fuel + 1, i, j =>
    if i < j then
      let h := (i + j) / 2
      if !f h then searchLoop f fuel (h + 1) j else searchLoop f fuel i h
    else i

/-- Go's `sort.Search(n, f)`. -/
def Search (n : Nat) (f : Nat → Bool) : Nat := searchLoop f n 0 n

/-- Go's `sort.SearchStrings(a, x)`: `Search(len(a), func(i) { return a[i] >= x })`. -/
def SearchStrings (a : List String) (x : String) : Nat :=
  Search a.length (fun i => decide (strLE x (a.getD i "")))

/-- The function `appendUniq` of `cli.go`. -/
def appendUniq (strs : List String) (item : String) : List String :=
  if strs.length = 0 then strs ++ [item]
  else
    let strs := sortStrings strs
    let i := SearchStrings strs item
    if i = strs.length ∨ (i < strs.length ∧ strs.getD i "" ≠ item) then strs ++ [item]
    else strs

/-! ## The data model -/

/-- The value of an output (`interface{}` in Go): a JSON scalar. -/
inductive Value where
  | null : Value
  | str : String → Value
  | num : Int → Value
  deriving DecidableEq, Repr

/-- A resource: the fields `baseName`, `resourceType`, `counter` that `cli.go` reads, and the
results of the methods `Address()`, `Tags()` and `Attributes()`. -/
structure Resource where
  baseName : String
  resourceType : String
  counter : Int
  Address : String
  Tags : GoMap String
  Attributes : GoMap String
  deriving DecidableEq, Repr

/-- An output of the state: `keyName` and `value`. -/
structure Output where
  keyName : String
  value : Value
  deriving DecidableEq, Repr

/-- The state: the results of `s.resources()` and `s.outputs()`. -/
structure state where
  resources : List Resource
  outputs : List Output
  deriving DecidableEq, Repr

/-- The struct `allGroup` of `cli.go`. -/
structure allGroup where
  Hosts : List String
  Vars : GoMap Value
  deriving DecidableEq, Repr

/-- A value of the result map of `gatherResources` (`interface{}` in Go): the pointer to the
`allGroup`, or a host list. -/
inductive GroupValue where
  | all : allGroup → GroupValue
  | hosts : List String → GroupValue
  deriving DecidableEq, Repr

/-! ## Sorting by counter -/

/-- The struct `counterSorter` of `cli.go`. -/
structure counterSorter where
  resources : List Resource
  deriving DecidableEq, Repr

/-- The method `counterSorter.Len`. -/
def counterSorter.Len (cs : counterSorter) : Nat := cs.resources.length

/-- The method `counterSorter.Less`; the indices are in range whenever `sort.Sort` calls it. -/
def counterSorter.Less (cs : counterSorter) (i j : Nat) : Bool :=
  match cs.resources.get? i, cs.resources.get? j with
  | some a, some b => decide (a.counter < b.counter)
  | _, _ => false

/-- The method `counterSorter.Swap`. -/
def counterSorter.Swap (cs : counterSorter) (i j : Nat) : counterSorter :=
  match cs.resources.get? i, cs.resources.get? j with
  | some a, some b => ⟨(cs.resources.set i b).set j a⟩
  | _, _ => cs

/-- Go's `sort.Sort` on a `counterSorter`, by its documented contract: it rearranges the
slice so that no later element is `Less` than an earlier one; stability is not promised. -/
structure SortRoutine where
  run : counterSorter → counterSorter
  perm : ∀ cs, List.Perm (run cs).resources cs.resources
  ordered : ∀ cs i j, i < j → j < (run cs).Len → (run cs).Less j i = false

/-- The order that `counterSorter.Less` sorts for: `a` may precede `b`. -/
def counterLE (a b : Resource) : Prop := a.counter ≤ b.counter

instance counterLE.decidable : DecidableRel counterLE :=
  fun a b => inferInstanceAs (Decidable (a.counter ≤ b.counter))

instance counterLE.total : IsTotal Resource counterLE := ⟨fun a b => le_total a.counter b.counter⟩

instance counterLE.trans : IsTrans Resource counterLE :=
  ⟨fun a b c (h₁ : a.counter ≤ b.counter) (h₂ : b.counter ≤ c.counter) => le_trans h₁ h₂⟩

/-- An insertion sort on the counter, one routine that meets the contract. -/
def insertionSortRoutine : SortRoutine where
  run cs := ⟨cs.resources.insertionSort counterLE⟩
  perm cs := List.perm_insertionSort _ _
  ordered cs i j hij hj := by
    have hs : List.Sorted counterLE (cs.resources.insertionSort counterLE) :=
      List.sorted_insertionSort _ _
    simp only [counterSorter.Len] at hj
    have hi : i < (cs.resources.insertionSort counterLE).length := lt_trans hij hj
    have := List.pairwise_iff_get.mp hs ⟨i, hi⟩ ⟨j, hj⟩ hij
    simp only [counterSorter.Less, List.get?_eq_getElem?, List.getElem?_eq_getElem hi,
      List.getElem?_eq_getElem hj]
    simpa [counterLE] using this

/-! ## The grouping engine -/

/-- A message written to standard error by `gatherResources`: the overwrite of an individual
key inside the resource loop, or an overwrite while a partition is merged into the result. -/
inductive Diagnostic where
  | individualKey : String → List String → String → Diagnostic
  | overwrite : String → String → GroupValue → List String → Diagnostic
  deriving DecidableEq, Repr

/-- The local variables of `gatherResources` after its loops: the five partitions, the
working map `unsortedOrdered`, and what was written to standard error. -/
structure Partitions where
  all : allGroup
  types : GoMap (List String)
  individual : GoMap (List String)
  ordered : GoMap (List String)
  tags : GoMap (List String)
  unsortedOrdered : GoMap (List Resource)
  stderr : List Diagnostic
  deriving DecidableEq, Repr

/-- The name of the tag group of the tag `k = v`: `k`, or `k_v` when `v` is not empty. -/
def tagGroupName (k v : String) : String :=
  if v ≠ "" then k ++ "_" ++ v else k

/-- The name of the individual group: `fmt.Sprintf("%s.%d", baseName, counter)`. -/
def invdGroupName (res : Resource) : String :=
  res.baseName ++ "." ++ toString res.counter

/-- The name of the type group: `fmt.Sprintf("type_%s", resourceType)`. -/
def typeGroupName (res : Resource) : String :=
  "type_" ++ res.resourceType

/-- The body of the loop `for k, v := range res.Tags()`. -/
def tagsBody (address : String) (tags : GoMap (List String)) (kv : String × String) :
    GoMap (List String) :=
  let tag := tagGroupName kv.1 kv.2
  mapSet tags tag (appendUniq (mapGetD tags tag) address)

/-- The body of the loop `for _, res := range s.resources()` of `gatherResources`. -/
def resourceBody (st : Partitions) (res : Resource) : Partitions :=
  let tp := typeGroupName res
  let invdName := invdGroupName res
  { all := { Hosts := appendUniq st.all.Hosts res.Address, Vars := st.all.Vars }
    types := mapSet st.types tp (appendUniq (mapGetD st.types tp) res.Address)
    unsortedOrdered :=
      mapSet st.unsortedOrdered res.baseName (mapGetD st.unsortedOrdered res.baseName ++ [res])
    stderr :=
      match mapGet st.individual invdName with
      | some old => st.stderr ++ [Diagnostic.individualKey invdName old res.Address]
      | none => st.stderr
    individual := mapSet st.individual invdName [res.Address]
    tags := res.Tags.foldl (tagsBody res.Address) st.tags
    ordered := st.ordered }

/-- The loop `for _, out := range s.outputs() { all.Vars[out.keyName] = out.value }`. -/
def outputsLoop (outputs : List Output) (vars : GoMap Value) : GoMap Value :=
  outputs.foldl (fun vars out => mapSet vars out.keyName out.value) vars

/-- The body of the loop `for basename, resources := range unsortedOrdered`: sort the
resources, then append their addresses to `ordered[basename]`. -/
def orderedBody (sort : SortRoutine) (ordered : GoMap (List String))
    (entry : String × List Resource) : GoMap (List String) :=
  (sort.run ⟨entry.2⟩).resources.foldl
    (fun ordered res => mapSet ordered entry.1 (mapGetD ordered entry.1 ++ [res.Address])) ordered

/-- The locals of `gatherResources` at the statement `outputGroups["all"] = all`. -/
def gatherPartitions (sort : SortRoutine) (s : state) : Partitions :=
  let init : Partitions :=
    { all := { Hosts := [], Vars := [] }, types := [], individual := [], ordered := [],
      tags := [], unsortedOrdered := [], stderr := [] }
  let st := s.resources.foldl resourceBody init
  let vars := if s.outputs.length > 0 then outputsLoop s.outputs st.all.Vars else st.all.Vars
  { st with
    all := { Hosts := st.all.Hosts, Vars := vars }
    ordered := st.unsortedOrdered.foldl (orderedBody sort) st.ordered }

/-- One of the four merge loops `for k, v := range part { ...; outputGroups[k] = v }`, on the
result map and the standard-error log. -/
def mergePartition (label : String) (part : GoMap (List String))
    (acc : GoMap GroupValue × List Diagnostic) : GoMap GroupValue × List Diagnostic :=
  part.foldl
    (fun acc kv =>
      (mapSet acc.1 kv.1 (GroupValue.hosts kv.2),
        match mapGet acc.1 kv.1 with
        | some old => acc.2 ++ [Diagnostic.overwrite label kv.1 old kv.2]
        | none => acc.2))
    acc

/-- The function `gatherResources` of `cli.go`: the result map, and what it wrote to standard
error. -/
def gatherResources (sort : SortRoutine) (s : state) : GoMap GroupValue × List Diagnostic :=
  let p := gatherPartitions sort s
  let outputGroups : GoMap GroupValue := mapSet [] "all" (GroupValue.all p.all)
  mergePartition "tags" p.tags
    (mergePartition "types" p.types
      (mergePartition "ordered" p.ordered
        (mergePartition "individual" p.individual (outputGroups, p.stderr))))


/-! ## Example states -/

/-- Three resources `web`, listed with the counters 2, 0, 1; two of them carry tags. -/
def exampleWeb : state :=
  { resources :=
      [ { baseName := "web", resourceType := "aws_instance", counter := 2, Address := "10.0.0.2",
          Tags := [("env", "prod"), ("solo", "")], Attributes := [] },
        { baseName := "web", resourceType := "aws_instance", counter := 0, Address := "10.0.0.0",
          Tags := [("env", "prod")], Attributes := [] },
        { baseName := "web", resourceType := "aws_instance", counter := 1, Address := "10.0.0.1",
          Tags := [], Attributes := [] } ]
    outputs := [{ keyName := "region", value := Value.str "eu" }] }

/-- Two resources with the base name `web` and the counter 3, and a third resource. -/
def exampleRepeated : state :=
  { resources :=
      [ { baseName := "web", resourceType := "aws_instance", counter := 3, Address := "10.0.0.7",
          Tags := [], Attributes := [] },
        { baseName := "web", resourceType := "aws_instance", counter := 3, Address := "10.0.0.8",
          Tags := [], Attributes := [] },
        { baseName := "db", resourceType := "aws_db", counter := 0, Address := "10.0.0.9",
          Tags := [], Attributes := [] } ]
    outputs := [] }

/-- A state in which a tag group, a base name and an individual name collide. -/
def exampleCollision : state :=
  { resources :=
      [ { baseName := "web", resourceType := "aws_instance", counter := 0, Address := "10.0.0.1",
          Tags := [("web", ""), ("type", "aws_instance"), ("all", "")], Attributes := [] },
        { baseName := "db", resourceType := "aws_db", counter := 0, Address := "10.0.0.2",
          Tags := [("web", "")], Attributes := [] } ]
    outputs := [] }

/-! ## The orchestrator-specific projection -/

/-- The struct `AnsibleInv` of `cli.go`. -/
structure AnsibleInv where
  Children : List String
  deriving DecidableEq, Repr

/-- The struct `AnsibleMeta` of `cli.go`; each host maps to its `hostvars` map. -/
structure AnsibleMeta where
  HostVars : GoMap (GoMap Value)
  deriving DecidableEq, Repr

/-- The struct `AnsibleGroup` of `cli.go`. -/
structure AnsibleGroup where
  Group : GoMap (List String)
  deriving DecidableEq, Repr

/-- A value of the result map of `gatherAnsibleResources` (`interface{}` in Go): the pointer
to the `AnsibleInv`, the pointer to the `AnsibleMeta`, or a `group_host` map. -/
inductive AnsibleValue where
  | children : AnsibleInv → AnsibleValue
  | hostVars : AnsibleMeta → AnsibleValue
  | group : GoMap (List String) → AnsibleValue
  deriving DecidableEq, Repr

/-- The lookup `res.Attributes()[key]` of a string-valued map: a missing key reads as the
empty string. -/
def attributeOf (res : Resource) (key : String) : String :=
  (mapGet res.Attributes key).getD ""

/-- Go's `strings.Contains` on the characters of the two strings: the second list occurs in
the first. -/
def containsChars (substr : List Char) : List Char → Bool
  | [] => substr.isPrefixOf []
  | c :: cs => substr.isPrefixOf (c :: cs) || containsChars substr cs

/-- Go's `strings.Contains(s, substr)`. -/
def stringsContains (s substr : String) : Bool :=
  containsChars substr.toList s.toList

/-- Go's `strings.Replace(s, old, "", 1)` on the characters: the leftmost occurrence of
`old` is removed. -/
def removeFirstChars (old : List Char) : List Char → List Char
  | [] => []
  | c :: cs =>
    if old.isPrefixOf (c :: cs) then (c :: cs).drop old.length
    else c :: removeFirstChars old cs

/-- Go's `strings.Replace(s, old, n, 1)` for the empty string `n`. -/
def stringsRemoveFirst (s old : String) : String :=
  String.mk (removeFirstChars old.toList s.toList)

/-- The group name of a resource: `res.Attributes()["tags.ansible_group"]`. -/
def ansibleGroupName (res : Resource) : String :=
  attributeOf res "tags.ansible_group"

/-- The synthesized host name:
`fmt.Sprintf("%s.%s.aws", res.baseName, res.Attributes()["availability_zone"])`. -/
def ansibleHostName (res : Resource) : String :=
  res.baseName ++ "." ++ attributeOf res "availability_zone" ++ ".aws"

/-- The variable name of an output for a resource:
`strings.Replace(out.keyName, fmt.Sprintf("%s_%s_", res.resourceType, res.baseName), n, 1)`. -/
def hostvarName (res : Resource) (out : Output) : String :=
  stringsRemoveFirst out.keyName (res.resourceType ++ "_" ++ res.baseName ++ "_")

/-- The test that attaches an output to a resource:
`strings.Contains(out.keyName, fmt.Sprintf("%s_%s", res.resourceType, res.baseName))`. -/
def outputMatches (res : Resource) (out : Output) : Bool :=
  stringsContains out.keyName (res.resourceType ++ "_" ++ res.baseName)

/-- The loop `for _, out := range s.outputs()` of `gatherAnsibleResources`, from the empty
`hostvars` map. -/
def hostvarsLoop (outputs : List Output) (res : Resource) : GoMap Value :=
  outputs.foldl
    (fun hostvars out =>
      if outputMatches res out then mapSet hostvars (hostvarName res out) out.value
      else hostvars)
    []

/-- The locals `all`, `meta` and `ansible_group` of `gatherAnsibleResources`. -/
structure AnsibleLocals where
  all : AnsibleInv
  meta : AnsibleMeta
  ansible_group : AnsibleGroup
  deriving DecidableEq, Repr

/-- The body of the loop `for _, res := range s.resources()` of `gatherAnsibleResources`. -/
def ansibleBody (outputs : List Output) (st : AnsibleLocals) (res : Resource) : AnsibleLocals :=
  if res.resourceType = "aws_instance" then
    let group_name := ansibleGroupName res
    let host_name := ansibleHostName res
    { all := { Children := appendUniq st.all.Children group_name }
      ansible_group :=
        { Group := mapSet st.ansible_group.Group group_name
            (mapGetD st.ansible_group.Group group_name ++ [host_name]) }
      meta :=
        if outputs.length > 0 then
          { HostVars := mapSet st.meta.HostVars host_name (hostvarsLoop outputs res) }
        else st.meta }
  else st

/-- The locals of `gatherAnsibleResources` at the statement `outputGroups["all"] = all`. -/
def gatherAnsibleLocals (s : state) : AnsibleLocals :=
  s.resources.foldl (ansibleBody s.outputs)
    { all := { Children := [] }, meta := { HostVars := [] }, ansible_group := { Group := [] } }

/-- The function `gatherAnsibleResources` of `cli.go`. -/
def gatherAnsibleResources (s : state) : GoMap AnsibleValue :=
  let st := gatherAnsibleLocals s
  let outputGroups : GoMap AnsibleValue :=
    mapSet (mapSet [] "all" (AnsibleValue.children st.all)) "_meta" (AnsibleValue.hostVars st.meta)
  st.ansible_group.Group.foldl
    (fun outputGroups kv => mapSet outputGroups kv.1 (AnsibleValue.group (mapSet [] "hosts" kv.2)))
    outputGroups

/-- Two instances in two groups, a database, and outputs named after the resources. -/
def exampleAnsible : state :=
  { resources :=
      [ { baseName := "web", resourceType := "aws_instance", counter := 0, Address := "10.0.0.1",
          Tags := [], Attributes := [("tags.ansible_group", "front"),
            ("availability_zone", "eu-west-1a")] },
        { baseName := "db", resourceType := "aws_db_instance", counter := 0,
          Address := "10.0.0.2", Tags := [],
          Attributes := [("tags.ansible_group", "data"), ("availability_zone", "eu-west-1b")] },
        { baseName := "web", resourceType := "aws_instance", counter := 1, Address := "10.0.0.3",
          Tags := [], Attributes := [("tags.ansible_group", "front"),
            ("availability_zone", "eu-west-1a")] },
        { baseName := "api", resourceType := "aws_instance", counter := 0, Address := "10.0.0.4",
          Tags := [], Attributes := [("tags.ansible_group", "back"),
            ("availability_zone", "eu-west-1b")] } ]
    outputs :=
      [ { keyName := "aws_instance_web_port", value := Value.num 80 },
        { keyName := "aws_instance_webserver_ip", value := Value.str "10.1.1.1" },
        { keyName := "region", value := Value.str "eu" },
        { keyName := "aws_instance_api_port", value := Value.num 8080 } ] }

/-- An instance whose group is named `all`. -/
def exampleAnsibleAll : state :=
  { resources :=
      [ { baseName := "web", resourceType := "aws_instance", counter := 0, Address := "10.0.0.1",
          Tags := [], Attributes := [("tags.ansible_group", "all"),
            ("availability_zone", "eu-west-1a")] } ]
    outputs := [] }


/-! ## Writers and the commands -/

/-- The failure of one `Write` call: the number of characters written before the error, and
the text of the error. -/
structure WriteFailure where
  accepted : Nat
  message : String
  deriving DecidableEq, Repr

/-- An `io.Writer`: the text it has accepted, and the outcomes of its coming `Write` calls in
order (`none`: the call succeeds; a call after the last entry succeeds). -/
structure Writer where
  written : String
  outcomes : List (Option WriteFailure)
  deriving DecidableEq, Repr

/-- One call of `Write` (as made by `io.WriteString`, `fmt.Fprintf` and `stdout.Write`): the
writer afterwards, and the error if the call failed. -/
def Writer.Write (w : Writer) (p : String) : Writer × Option String :=
  match w.outcomes with
  | [] => ({ written := w.written ++ p, outcomes := [] }, none)
  | none :: rest => ({ written := w.written ++ p, outcomes := rest }, none)
  | some f :: rest =>
    ({ written := w.written ++ String.mk (p.toList.take f.accepted), outcomes := rest },
      some f.message)

/-- What a command leaves behind: its result code, the two writers, and what
`gatherResources` wrote to the standard error of the process. -/
structure CmdResult where
  code : Int
  stdout : Writer
  stderr : Writer
  diagnostics : List Diagnostic
  deriving DecidableEq, Repr

/-- The function `checkErr` of `cli.go`: the writer `stderr` afterwards, and the returned
code. -/
def checkErr (err : Option String) (stderr : Writer) : Writer × Int :=
  match err with
  | some e => ((stderr.Write ("Error writing inventory: " ++ e ++ "\n")).1, 1)
  | none => (stderr, 0)

/-- The function `writeLn` of `cli.go`, on the pair of `stdout` and `stderr`; the code that
`checkErr` returns is dropped, as in the source. -/
def writeLn (str : String) (io : Writer × Writer) : Writer × Writer :=
  let w := io.1.Write (str ++ "\n")
  (w.1, (checkErr w.2 io.2).1)

/-- The function `output` of `cli.go`; `marshal` is `json.Marshal` on the type of
`whatever`. -/
def output {α : Type} (marshal : α → Except String String) (stdout stderr : Writer)
    (whatever : α) : CmdResult :=
  match marshal whatever with
  | Except.error err =>
    { code := 1, stdout := stdout,
      stderr := (stderr.Write ("Error encoding JSON: " ++ err ++ "\n")).1, diagnostics := [] }
  | Except.ok b =>
    match stdout.Write b with
    | (stdout', some err) =>
      { code := 1, stdout := stdout',
        stderr := (stderr.Write ("Error writing JSON: " ++ err ++ "\n")).1, diagnostics := [] }
    | (stdout', none) => { code := 0, stdout := stdout', stderr := stderr, diagnostics := [] }

/-- The function `cmdList` of `cli.go`. -/
def cmdList (marshal : GoMap AnsibleValue → Except String String) (stdout stderr : Writer)
    (s : state) : CmdResult :=
  output marshal stdout stderr (gatherAnsibleResources s)

/-- The function `cmdHost` of `cli.go`. -/
def cmdHost (marshal : GoMap String → Except String String) (stdout stderr : Writer)
    (s : state) (hostname : String) : CmdResult :=
  match s.resources.find? (fun res => hostname = res.Address) with
  | some res => output marshal stdout stderr res.Attributes
  | none =>
    { code := 1, stdout := (stdout.Write "\x7b\x7d").1, stderr := stderr, diagnostics := [] }

/-- The text of `json.Marshal(grp.Vars[key])` with the error dropped, as in `cmdInventory`:
the empty string when the encoding fails. -/
def jsonItem (marshal : Value → Except String String) (vars : GoMap Value) (key : String) :
    String :=
  match marshal ((mapGet vars key).getD Value.null) with
  | Except.ok b => b
  | Except.error _ => ""

/-- The body of the loop `for _, group := range group_names` of `cmdInventory`. -/
def inventoryBody (marshal : Value → Except String String) (groups : GoMap GroupValue)
    (io : Writer × Writer) (group : String) : Writer × Writer :=
  let io :=
    match mapGet groups group with
    | some (GroupValue.hosts grp) =>
      grp.foldl (fun io item => writeLn item io) (writeLn ("[" ++ group ++ "]") io)
    | some (GroupValue.all grp) =>
      let io := grp.Hosts.foldl (fun io item => writeLn item io) (writeLn ("[" ++ group ++ "]") io)
      let io := writeLn "" io
      let io := writeLn ("[" ++ group ++ ":vars]") io
      (sortStrings (mapKeys grp.Vars)).foldl
        (fun io key => writeLn (key ++ "=" ++ jsonItem marshal grp.Vars key) io) io
    | none => io
  writeLn "" io

/-- The function `cmdInventory` of `cli.go`; `marshal` is `json.Marshal` on the values of the
variables. -/
def cmdInventory (sort : SortRoutine) (marshal : Value → Except String String)
    (stdout stderr : Writer) (s : state) : CmdResult :=
  let groups := gatherResources sort s
  let group_names := sortStrings (mapKeys groups.1)
  let io := group_names.foldl (inventoryBody marshal groups.1) (stdout, stderr)
  { code := 0, stdout := io.1, stderr := io.2, diagnostics := groups.2 }

/-- The lines of a list of strings: each followed by a line break. -/
def joinLines : List String → String
  | [] => ""
  | l :: ls => l ++ "\n" ++ joinLines ls

/-- The line-oriented rendering of one group as the specification words it: the line
`[name]`, one host per line, and a blank line; for the `all` structure, after its hosts and a
blank line, the line `[name:vars]` and one line `key=value` per variable in the order of the
keys, the value JSON-encoded, and a blank line. -/
def specGroupBlock (marshal : Value → Except String String) (name : String) :
    GroupValue → String
  | GroupValue.hosts hosts => joinLines (("[" ++ name ++ "]") :: hosts ++ [""])
  | GroupValue.all grp =>
    joinLines (("[" ++ name ++ "]") :: grp.Hosts ++ ["", "[" ++ name ++ ":vars]"] ++
      (sortStrings (mapKeys grp.Vars)).map
        (fun key => key ++ "=" ++ jsonItem marshal grp.Vars key) ++ [""])

/-- The concatenation of the blocks of the named groups of a result map. -/
def specInventory (marshal : Value → Except String String) (groups : GoMap GroupValue) :
    List String → String
  | [] => ""
  | name :: names =>
    (match mapGet groups name with
      | some v => specGroupBlock marshal name v
      | none => "\n") ++ specInventory marshal groups names

/-- A JSON encoder of the output values for the examples: numbers in decimal, strings between
quotes without escaping. -/
def exampleMarshalValue : Value → Except String String
  | Value.null => Except.ok "null"
  | Value.num n => Except.ok (toString n)
  | Value.str v => Except.ok ("\"" ++ v ++ "\"")

/-- A JSON encoder of an attribute map for the examples, without escaping and in the order
of the association list. -/
def exampleMarshalAttributes (m : GoMap String) : Except String String :=
  Except.ok ("\x7b" ++
    ",".intercalate (m.map (fun kv => "\"" ++ kv.1 ++ "\":\"" ++ kv.2 ++ "\"")) ++ "\x7d")

/-- Two resources `web` whose addresses are `web.0` and `web.1`. -/
def exampleInventory : state :=
  { resources :=
      [ { baseName := "web", resourceType := "t", counter := 0, Address := "web.0",
          Tags := [], Attributes := [("id", "i-0")] },
        { baseName := "web", resourceType := "t", counter := 1, Address := "web.1",
          Tags := [], Attributes := [("id", "i-1")] } ]
    outputs := [{ keyName := "region", value := Value.str "eu" }] }

/-- A standard output whose first `Write` call fails without writing anything. -/
def failingStdout : Writer :=
  { written := "", outcomes := [some { accepted := 0, message := "broken pipe" }] }

/-- A writer that has written nothing and never fails. -/
def emptyWriter : Writer := { written := "", outcomes := [] }


/-! ## A sort routine that is not stable -/

/-- The pass `for i := a + 6; i < b; i++ { if data.Less(i, i-6) { data.Swap(i, i-6) } }`
that `sort.Sort` of Go 1.7 to Go 1.18 runs over a slice of at most 12 elements before its
insertion sort. -/
def shellPass (cs : counterSorter) : counterSorter :=
  (List.range (cs.Len - 6)).foldl
    (fun cs i => if cs.Less (i + 6) i then cs.Swap (i + 6) i else cs) cs

/-- The pass of `shellPass` followed by an insertion sort: what `sort.Sort` of Go 1.7 to
Go 1.18 does on a slice of 2 to 12 elements, and a routine that meets the contract on every
slice. -/
def shellSortRoutine : SortRoutine where
  run cs := ⟨(shellPass cs).resources.insertionSort counterLE⟩
  perm cs := by
    have hswap : ∀ (c : counterSorter) (i j : Nat), (c.Swap i j).resources.Perm c.resources := by
      intro c i j
      unfold counterSorter.Swap
      cases hi : c.resources.get? i with
      | none => exact List.Perm.refl _
      | some a =>
        cases hj : c.resources.get? j with
        | none => exact List.Perm.refl _
        | some b =>
          have hi' : i < c.resources.length := by
            rw [List.get?_eq_getElem?] at hi
            exact (List.getElem?_eq_some_iff.mp hi).1
          have hj' : j < c.resources.length := by
            rw [List.get?_eq_getElem?] at hj
            exact (List.getElem?_eq_some_iff.mp hj).1
          have ha : c.resources[i] = a := by
            rw [List.get?_eq_getElem?] at hi
            exact (List.getElem?_eq_some_iff.mp hi).2
          have hb : c.resources[j] = b := by
            rw [List.get?_eq_getElem?] at hj
            exact (List.getElem?_eq_some_iff.mp hj).2
          show ((c.resources.set i b).set j a).Perm c.resources
          rw [List.perm_iff_count]
          intro x
          have hj'' : j < (c.resources.set i b).length := by simpa using hj'
          rw [List.count_set a x _ j hj'', List.count_set b x _ i hi', List.getElem_set, ha]
          by_cases hij : i = j
          · subst hij
            rw [hb] at ha
            subst ha
            simp only [if_true]
            have hpos : (b == x) = true → 0 < List.count x c.resources := by
              intro hbx
              have : b = x := by simpa using hbx
              subst this
              exact List.count_pos_iff.mpr (hb ▸ List.getElem_mem hi')
            by_cases hbx : (b == x) = true
            · have := hpos hbx
              simp only [hbx, if_true]
              omega
            · simp only [hbx, Bool.false_eq_true, if_false]
              omega
          · simp only [hij, if_false, hb]
            have hpos : (a == x) = true → 0 < List.count x c.resources := by
              intro hax
              have : a = x := by simpa using hax
              subst this
              exact List.count_pos_iff.mpr (ha ▸ List.getElem_mem hi')
            by_cases hax : (a == x) = true
            · have := hpos hax
              simp only [hax, if_true]
              by_cases hbx : (b == x) = true
              · simp only [hbx, if_true]; omega
              · simp only [hbx, Bool.false_eq_true, if_false]; omega
            · simp only [hax, Bool.false_eq_true, if_false]
              by_cases hbx : (b == x) = true
              · simp only [hbx, if_true]; omega
              · simp only [hbx, Bool.false_eq_true, if_false]; omega
    have hpass : ∀ (is : List Nat) (c : counterSorter),
        (is.foldl (fun cs i => if cs.Less (i + 6) i then cs.Swap (i + 6) i else cs)
          c).resources.Perm c.resources := by
      intro is
      induction is with
      | nil => intro c; exact List.Perm.refl _
      | cons i is ih =>
        intro c
        rw [List.foldl_cons]
        refine (ih _).trans ?_
        by_cases hl : c.Less (i + 6) i = true
        · simp only [hl, if_true]; exact hswap c _ _
        · simp only [hl, if_false]; exact List.Perm.refl _
    exact (List.perm_insertionSort _ _).trans (hpass _ cs)
  ordered cs i j hij hj := by
    have hs : List.Sorted counterLE ((shellPass cs).resources.insertionSort counterLE) :=
      List.sorted_insertionSort _ _
    simp only [counterSorter.Len] at hj
    have hi : i < ((shellPass cs).resources.insertionSort counterLE).length := lt_trans hij hj
    have := List.pairwise_iff_get.mp hs ⟨i, hi⟩ ⟨j, hj⟩ hij
    simp only [counterSorter.Less, List.get?_eq_getElem?, List.getElem?_eq_getElem hi,
      List.getElem?_eq_getElem hj]
    simpa [counterLE] using this

/-- Seven resources `web`; the first two have the counter 1, the last has the counter 0. -/
def exampleTies : state :=
  { resources :=
      [ { baseName := "web", resourceType := "t", counter := 1, Address := "a0",
          Tags := [], Attributes := [] },
        { baseName := "web", resourceType := "t", counter := 1, Address := "a1",
          Tags := [], Attributes := [] },
        { baseName := "web", resourceType := "t", counter := 2, Address := "a2",
          Tags := [], Attributes := [] },
        { baseName := "web", resourceType := "t", counter := 3, Address := "a3",
          Tags := [], Attributes := [] },
        { baseName := "web", resourceType := "t", counter := 4, Address := "a4",
          Tags := [], Attributes := [] },
        { baseName := "web", resourceType := "t", counter := 5, Address := "a5",
          Tags := [], Attributes := [] },
        { baseName := "web", resourceType := "t", counter := 0, Address := "a6",
          Tags := [], Attributes := [] } ]
    outputs := [] }


/-! ## The stages of the merge -/

/-- The result map of `gatherResources` after `outputGroups["all"] = all`. -/
def afterAll (p : Partitions) : GoMap GroupValue :=
  mapSet [] "all" (GroupValue.all p.all)

/-- The result map of `gatherResources` after the merge loop of `individual`. -/
def afterIndividual (p : Partitions) : GoMap GroupValue :=
  (mergePartition "individual" p.individual (afterAll p, [])).1

/-- The result map of `gatherResources` after the merge loop of `ordered`. -/
def afterOrdered (p : Partitions) : GoMap GroupValue :=
  (mergePartition "ordered" p.ordered (afterIndividual p, [])).1

/-- The result map of `gatherResources` after the merge loop of `types`. -/
def afterTypes (p : Partitions) : GoMap GroupValue :=
  (mergePartition "types" p.types (afterOrdered p, [])).1

/-- Whether a diagnostic was written by a merge loop. -/
def Diagnostic.isOverwrite : Diagnostic → Bool
  | Diagnostic.overwrite _ _ _ _ => true
  | Diagnostic.individualKey _ _ _ => false


/-! ## The string order -/

theorem strLE_iff_le (a b : String) : strLE a b ↔ a ≤ b :=
  String.le_iff_toList_le.symm

theorem strLE_antisymm {a b : String} (h₁ : strLE a b) (h₂ : strLE b a) : a = b := by
  have h : a.toList = b.toList := le_antisymm h₁ h₂
  exact String.ext h

theorem strLE_refl (a : String) : strLE a a := le_refl a.toList

/-! ## Binary search -/

theorem searchLoop_spec (f : Nat → Bool) (n : Nat)
    (hmono : ∀ a b, a ≤ b → b < n → f a = true → f b = true) :
    ∀ fuel i j, i ≤ j → j ≤ n → j - i ≤ fuel →
      (∀ k, k < i → f k = false) → (∀ k, j ≤ k → k < n → f k = true) →
      searchLoop f fuel i j ≤ n ∧ (∀ k, k < searchLoop f fuel i j → f k = false) ∧
        (∀ k, searchLoop f fuel i j ≤ k → k < n → f k = true) := by
  intro fuel
  induction fuel with
  | zero =>
    intro i j hij hjn hfuel hlo hhi
    have : i = j := by omega
    subst this
    exact ⟨hjn, hlo, hhi⟩
  | succ fuel ih =>
    intro i j hij hjn hfuel hlo hhi
    unfold searchLoop
    by_cases hlt : i < j
    · simp only [hlt, if_true]
      have h1 : i ≤ (i + j) / 2 := by omega
      have h2 : (i + j) / 2 < j := by omega
      by_cases hf : f ((i + j) / 2) = true
      · simp only [hf, Bool.not_true, Bool.false_eq_true, if_false]
        refine ih i ((i + j) / 2) h1 (by omega) (by omega) hlo ?_
        intro k hk hkn
        exact hmono _ _ hk hkn hf
      · have hf' : f ((i + j) / 2) = false := by simpa using hf
        simp only [hf', Bool.not_false, if_true]
        refine ih ((i + j) / 2 + 1) j (by omega) hjn (by omega) ?_ hhi
        intro k hk
        by_contra hk'
        have hk'' : f k = true := by simpa using hk'
        have := hmono k ((i + j) / 2) (by omega) (by omega) hk''
        rw [hf'] at this
        exact Bool.false_ne_true this
    · simp only [hlt, if_false]
      have : i = j := by omega
      subst this
      exact ⟨hjn, hlo, hhi⟩

theorem Search_spec (f : Nat → Bool) (n : Nat)
    (hmono : ∀ a b, a ≤ b → b < n → f a = true → f b = true) :
    Search n f ≤ n ∧ (∀ k, k < Search n f → f k = false) ∧
      (∀ k, Search n f ≤ k → k < n → f k = true) :=
  searchLoop_spec f n hmono n 0 n (Nat.zero_le _) (le_refl _) (by omega)
    (fun k hk => absurd hk (Nat.not_lt_zero k)) (fun k hk hkn => absurd hkn (by omega))

theorem SearchStrings_spec (a : List String) (x : String) (hs : a.Sorted strLE) :
    SearchStrings a x ≤ a.length ∧
      (∀ k (hk : k < a.length), k < SearchStrings a x → ¬ strLE x a[k]) ∧
      (∀ k (hk : k < a.length), SearchStrings a x ≤ k → strLE x a[k]) := by
  have hmono : ∀ p q, p ≤ q → q < a.length →
      (fun i => decide (strLE x (a.getD i ""))) p = true →
      (fun i => decide (strLE x (a.getD i ""))) q = true := by
    intro p q hpq hq hp
    have hp' : p < a.length := by omega
    simp only [decide_eq_true_eq, List.getD_eq_getElem?_getD, List.getElem?_eq_getElem hp',
      List.getElem?_eq_getElem hq, Option.getD_some] at hp ⊢
    rcases Nat.eq_or_lt_of_le hpq with h | h
    · subst h; exact hp
    · exact IsTrans.trans _ _ _ hp (List.pairwise_iff_getElem.mp hs p q hp' hq h)
  obtain ⟨h1, h2, h3⟩ := Search_spec _ a.length hmono
  refine ⟨h1, ?_, ?_⟩
  · intro k hk hlt
    have := h2 k hlt
    simpa [List.getD_eq_getElem?_getD, List.getElem?_eq_getElem hk] using this
  · intro k hk hle
    have := h3 k hle hk
    simpa [List.getD_eq_getElem?_getD, List.getElem?_eq_getElem hk] using this

/-! ## The uniqueness helper: what `appendUniq` returns -/

theorem sortStrings_sorted (strs : List String) : (sortStrings strs).Sorted strLE :=
  List.sorted_insertionSort _ _

theorem sortStrings_perm (strs : List String) : (sortStrings strs).Perm strs :=
  List.perm_insertionSort _ _

theorem mem_sortStrings {strs : List String} {x : String} : x ∈ sortStrings strs ↔ x ∈ strs :=
  (sortStrings_perm strs).mem_iff

theorem length_sortStrings (strs : List String) : (sortStrings strs).length = strs.length :=
  (sortStrings_perm strs).length_eq

/-- On an ascending slice the test of `appendUniq` after the binary search holds exactly when
the item is absent. -/
theorem searchTest_iff (s : List String) (item : String) (hs : s.Sorted strLE) :
    (SearchStrings s item = s.length ∨
      (SearchStrings s item < s.length ∧ s.getD (SearchStrings s item) "" ≠ item)) ↔
      item ∉ s := by
  obtain ⟨h1, h2, h3⟩ := SearchStrings_spec s item hs
  constructor
  · intro h hmem
    obtain ⟨k, hk, rfl⟩ := List.getElem_of_mem hmem
    have hrk : SearchStrings s s[k] ≤ k := by
      by_contra hlt
      exact h2 k hk (by omega) (strLE_refl _)
    rcases h with h | ⟨hlt, hne⟩
    · omega
    · apply hne
      rw [List.getD_eq_getElem?_getD, List.getElem?_eq_getElem hlt, Option.getD_some]
      have hge := h3 _ hlt (le_refl _)
      rcases Nat.eq_or_lt_of_le hrk with h | h
      · simp only [h]
      · exact strLE_antisymm (List.pairwise_iff_getElem.mp hs _ k hlt hk h) hge
  · intro hnot
    rcases Nat.eq_or_lt_of_le h1 with h | h
    · exact Or.inl h
    · refine Or.inr ⟨h, ?_⟩
      rw [List.getD_eq_getElem?_getD, List.getElem?_eq_getElem h, Option.getD_some]
      intro heq
      exact hnot (heq ▸ List.getElem_mem h)

/-- The value of `appendUniq`: the item alone on the empty slice, the sorted slice when the
item is present, the sorted slice followed by the item otherwise. -/
theorem appendUniq_eq (strs : List String) (item : String) :
    appendUniq strs item =
      if strs = [] then [item]
      else if item ∈ strs then sortStrings strs else sortStrings strs ++ [item] := by
  unfold appendUniq
  by_cases h0 : strs = []
  · subst h0; simp
  · have hlen : ¬ strs.length = 0 := by simpa using h0
    simp only [hlen, h0, if_false]
    rw [if_congr (searchTest_iff (sortStrings strs) item (sortStrings_sorted strs)) rfl rfl]
    simp only [mem_sortStrings]
    by_cases hm : item ∈ strs <;> simp [hm]

theorem appendUniq_nil (item : String) : appendUniq [] item = [item] := by
  simp [appendUniq_eq]

theorem mem_appendUniq {strs : List String} {item x : String} :
    x ∈ appendUniq strs item ↔ x ∈ strs ∨ x = item := by
  rw [appendUniq_eq]
  by_cases h0 : strs = []
  · subst h0; simp
  · by_cases hm : item ∈ strs
    · simp only [h0, hm, if_false, if_true, mem_sortStrings]
      constructor
      · exact Or.inl
      · rintro (h | rfl)
        · exact h
        · exact hm
    · simp [h0, hm, mem_sortStrings]

theorem nodup_appendUniq {strs : List String} (item : String) (h : strs.Nodup) :
    (appendUniq strs item).Nodup := by
  rw [appendUniq_eq]
  by_cases h0 : strs = []
  · subst h0; simp
  · have hs : (sortStrings strs).Nodup := (sortStrings_perm strs).nodup_iff.mpr h
    by_cases hm : item ∈ strs
    · simpa [h0, hm] using hs
    · simp only [h0, hm, if_false]
      rw [List.nodup_append]
      refine ⟨hs, List.nodup_singleton _, ?_⟩
      intro a ha hb
      rw [List.mem_singleton] at hb
      subst hb
      exact hm (mem_sortStrings.mp ha)

theorem length_appendUniq (strs : List String) (item : String) :
    (appendUniq strs item).length = if item ∈ strs then strs.length else strs.length + 1 := by
  rw [appendUniq_eq]
  by_cases h0 : strs = []
  · subst h0; simp
  · by_cases hm : item ∈ strs <;> simp [h0, hm, length_sortStrings]

/-! ## Folding `appendUniq` -/

theorem mem_foldl_appendUniq (as init : List String) (x : String) :
    x ∈ as.foldl appendUniq init ↔ x ∈ init ∨ x ∈ as := by
  induction as generalizing init with
  | nil => simp
  | cons a as ih =>
    rw [List.foldl_cons, ih, mem_appendUniq, List.mem_cons]
    constructor
    · rintro ((h | h) | h)
      · exact Or.inl h
      · exact Or.inr (Or.inl h)
      · exact Or.inr (Or.inr h)
    · rintro (h | h | h)
      · exact Or.inl (Or.inl h)
      · exact Or.inl (Or.inr h)
      · exact Or.inr h

theorem nodup_foldl_appendUniq (as init : List String) (h : init.Nodup) :
    (as.foldl appendUniq init).Nodup := by
  induction as generalizing init with
  | nil => simpa using h
  | cons a as ih => exact ih _ (nodup_appendUniq a h)

/-- Every element but the last of what `appendUniq` returns is in ascending order. -/
theorem sorted_dropLast_appendUniq (strs : List String) (item : String) :
    (appendUniq strs item).dropLast.Sorted strLE := by
  rw [appendUniq_eq]
  by_cases h0 : strs = []
  · subst h0; simp
  · by_cases hm : item ∈ strs
    · simp only [h0, hm, if_false, if_true]
      exact (sortStrings_sorted strs).sublist (List.dropLast_sublist _)
    · simp only [h0, hm, if_false, List.dropLast_concat]
      exact sortStrings_sorted strs

theorem sorted_dropLast_foldl_appendUniq (as : List String) :
    (as.foldl appendUniq []).dropLast.Sorted strLE := by
  rcases List.eq_nil_or_concat as with h | ⟨as', a, h⟩
  · subst h; simp
  · subst h
    rw [List.concat_eq_append, List.foldl_append]
    exact sorted_dropLast_appendUniq _ _

/-! ## Maps -/

theorem mapGet_mapSet {V : Type} (m : GoMap V) (k k' : String) (v : V) :
    mapGet (mapSet m k v) k' = if k = k' then some v else mapGet m k' := by
  induction m with
  | nil => simp [mapSet, mapGet]
  | cons p m ih =>
    obtain ⟨k₀, v₀⟩ := p
    by_cases h : k₀ = k
    · subst h
      by_cases h' : k₀ = k' <;> simp [mapSet, mapGet, h']
    · by_cases h' : k₀ = k'
      · subst h'
        have hne : ¬ k = k₀ := fun e => h e.symm
        simp [mapSet, mapGet, h, hne]
      · simp [mapSet, mapGet, h, h', ih]

theorem mapGetD_mapSet {V : Type} (m : GoMap (List V)) (k k' : String) (v : List V) :
    mapGetD (mapSet m k v) k' = if k = k' then v else mapGetD m k' := by
  unfold mapGetD
  rw [mapGet_mapSet]
  by_cases h : k = k' <;> simp [h]

theorem mapKeys_mapSet {V : Type} (m : GoMap V) (k : String) (v : V) :
    mapKeys (mapSet m k v) = if k ∈ mapKeys m then mapKeys m else mapKeys m ++ [k] := by
  induction m with
  | nil => simp [mapSet, mapKeys]
  | cons p m ih =>
    obtain ⟨k₀, v₀⟩ := p
    simp only [mapKeys] at ih ⊢
    by_cases h : k₀ = k
    · subst h; simp [mapSet]
    · have hne : ¬ k = k₀ := fun e => h e.symm
      simp only [mapSet, h, if_false, List.map_cons, ih, List.mem_cons, hne, false_or]
      by_cases hm : k ∈ List.map Prod.fst m <;> simp [hm]

theorem mem_mapKeys_mapSet {V : Type} (m : GoMap V) (k k' : String) (v : V) :
    k' ∈ mapKeys (mapSet m k v) ↔ k' = k ∨ k' ∈ mapKeys m := by
  rw [mapKeys_mapSet]
  by_cases hm : k ∈ mapKeys m
  · simp only [hm, if_true]
    constructor
    · exact Or.inr
    · rintro (rfl | h)
      · exact hm
      · exact h
  · simp only [hm, if_false, List.mem_append, List.mem_singleton]
    exact or_comm

theorem nodup_mapKeys_mapSet {V : Type} (m : GoMap V) (k : String) (v : V)
    (h : (mapKeys m).Nodup) : (mapKeys (mapSet m k v)).Nodup := by
  rw [mapKeys_mapSet]
  by_cases hm : k ∈ mapKeys m
  · simpa [hm] using h
  · simp only [hm, if_false]
    rw [List.nodup_append]
    refine ⟨h, List.nodup_singleton _, ?_⟩
    intro a ha hb
    rw [List.mem_singleton] at hb
    subst hb
    exact hm ha

theorem mapGet_isSome_iff {V : Type} (m : GoMap V) (k : String) :
    (mapGet m k).isSome ↔ k ∈ mapKeys m := by
  induction m with
  | nil => simp [mapGet, mapKeys]
  | cons p m ih =>
    obtain ⟨k₀, v₀⟩ := p
    simp only [mapKeys] at ih
    by_cases h : k₀ = k
    · simp [mapGet, mapKeys, h]
    · have hne : ¬ k = k₀ := fun e => h e.symm
      simp [mapGet, mapKeys, h, hne, ih]

theorem mapGet_eq_none_iff {V : Type} (m : GoMap V) (k : String) :
    mapGet m k = none ↔ k ∉ mapKeys m := by
  rw [← mapGet_isSome_iff]
  cases mapGet m k <;> simp

/-- A loop that updates one slice-valued map entry per element: the entry of `k` is the
fold of the updates of the elements whose key is `k`. -/
theorem mapGet_foldl_update {α V : Type} (key : α → String) (upd : List V → α → List V)
    (es : List α) (m₀ : GoMap (List V)) (k : String) :
    mapGet (es.foldl (fun m e => mapSet m (key e) (upd (mapGetD m (key e)) e)) m₀) k =
      if (es.filter (fun e => key e = k)).isEmpty then mapGet m₀ k
      else some ((es.filter (fun e => key e = k)).foldl upd (mapGetD m₀ k)) := by
  induction es generalizing m₀ with
  | nil => simp
  | cons e es ih =>
    rw [List.foldl_cons, ih]
    by_cases hk : key e = k
    · simp only [List.filter_cons, hk, decide_True, if_true, mapGet_mapSet, mapGetD_mapSet,
        List.foldl_cons]
      cases hf : es.filter (fun e => decide (key e = k)) <;> simp
    · simp only [List.filter_cons, hk, decide_False, mapGet_mapSet, mapGetD_mapSet, if_false]
      simp

theorem mapKeys_foldl_update {α V : Type} (key : α → String) (upd : List V → α → List V)
    (es : List α) (m₀ : GoMap (List V)) (k : String) :
    k ∈ mapKeys (es.foldl (fun m e => mapSet m (key e) (upd (mapGetD m (key e)) e)) m₀) ↔
      k ∈ mapKeys m₀ ∨ ∃ e ∈ es, key e = k := by
  induction es generalizing m₀ with
  | nil => simp
  | cons e es ih =>
    rw [List.foldl_cons, ih, mem_mapKeys_mapSet]
    constructor
    · rintro ((h | h) | ⟨x, hx, h⟩)
      · exact Or.inr ⟨e, List.mem_cons_self _ _, h.symm⟩
      · exact Or.inl h
      · exact Or.inr ⟨x, List.mem_cons_of_mem _ hx, h⟩
    · rintro (h | ⟨x, hx, h⟩)
      · exact Or.inl (Or.inr h)
      · rcases List.mem_cons.mp hx with rfl | hx
        · exact Or.inl (Or.inl h.symm)
        · exact Or.inr ⟨x, hx, h⟩

theorem nodup_mapKeys_foldl_update {α V : Type} (key : α → String) (upd : List V → α → List V)
    (es : List α) (m₀ : GoMap (List V)) (h : (mapKeys m₀).Nodup) :
    (mapKeys (es.foldl (fun m e => mapSet m (key e) (upd (mapGetD m (key e)) e)) m₀)).Nodup := by
  induction es generalizing m₀ with
  | nil => simpa using h
  | cons e es ih => exact ih _ (nodup_mapKeys_mapSet _ _ _ h)

/-! ## The resource loop, partition by partition -/

theorem foldl_resourceBody_hosts (rs : List Resource) (st : Partitions) :
    (rs.foldl resourceBody st).all.Hosts =
      (rs.map Resource.Address).foldl appendUniq st.all.Hosts := by
  induction rs generalizing st with
  | nil => rfl
  | cons r rs ih => rw [List.foldl_cons, ih]; rfl

theorem foldl_resourceBody_types (rs : List Resource) (st : Partitions) :
    (rs.foldl resourceBody st).types =
      rs.foldl (fun m r => mapSet m (typeGroupName r)
        ((fun l (x : Resource) => appendUniq l x.Address) (mapGetD m (typeGroupName r)) r))
        st.types := by
  induction rs generalizing st with
  | nil => rfl
  | cons r rs ih => rw [List.foldl_cons, ih]; rfl

theorem foldl_resourceBody_individual (rs : List Resource) (st : Partitions) :
    (rs.foldl resourceBody st).individual =
      rs.foldl (fun m r => mapSet m (invdGroupName r)
        ((fun (_ : List String) (x : Resource) => [x.Address]) (mapGetD m (invdGroupName r)) r))
        st.individual := by
  induction rs generalizing st with
  | nil => rfl
  | cons r rs ih => rw [List.foldl_cons, ih]; rfl

theorem foldl_resourceBody_unsortedOrdered (rs : List Resource) (st : Partitions) :
    (rs.foldl resourceBody st).unsortedOrdered =
      rs.foldl (fun m r => mapSet m r.baseName
        ((fun l (x : Resource) => l ++ [x]) (mapGetD m r.baseName) r))
        st.unsortedOrdered := by
  induction rs generalizing st with
  | nil => rfl
  | cons r rs ih => rw [List.foldl_cons, ih]; rfl

theorem foldl_resourceBody_ordered (rs : List Resource) (st : Partitions) :
    (rs.foldl resourceBody st).ordered = st.ordered := by
  induction rs generalizing st with
  | nil => rfl
  | cons r rs ih => rw [List.foldl_cons, ih]; rfl

/-- The tag loops of all resources, as one loop over the pairs of an address and a tag. -/
theorem foldl_resourceBody_tags (rs : List Resource) (st : Partitions) :
    (rs.foldl resourceBody st).tags =
      (rs.flatMap (fun r => r.Tags.map (fun kv => (r.Address, kv)))).foldl
        (fun m e => mapSet m (tagGroupName e.2.1 e.2.2)
          ((fun l (x : String × String × String) => appendUniq l x.1)
            (mapGetD m (tagGroupName e.2.1 e.2.2)) e))
        st.tags := by
  induction rs generalizing st with
  | nil => rfl
  | cons r rs ih =>
    rw [List.foldl_cons, ih, List.flatMap_cons, List.foldl_append, List.foldl_map]
    rfl

/-! ## The all, type and tag partitions -/

theorem gatherPartitions_hosts (sort : SortRoutine) (s : state) :
    (gatherPartitions sort s).all.Hosts =
      (s.resources.map Resource.Address).foldl appendUniq [] := by
  show (s.resources.foldl resourceBody _).all.Hosts = _
  rw [foldl_resourceBody_hosts]

/-- The entry of the type partition for a group name: the fold of `appendUniq` over the
addresses of the resources with that type group name. -/
theorem gatherPartitions_types (sort : SortRoutine) (s : state) (g : String) :
    mapGet (gatherPartitions sort s).types g =
      if (s.resources.filter (fun r => typeGroupName r = g)).isEmpty then none
      else some (((s.resources.filter (fun r => typeGroupName r = g)).map
        Resource.Address).foldl appendUniq []) := by
  show mapGet (s.resources.foldl resourceBody _).types g = _
  rw [foldl_resourceBody_types, List.foldl_map]
  exact mapGet_foldl_update (fun r : Resource => typeGroupName r)
    (fun l (x : Resource) => appendUniq l x.Address) s.resources [] g

/-- The entry of the tag partition for a group name: the fold of `appendUniq` over the
addresses of the resources, once per tag with that group name. -/
theorem gatherPartitions_tags (sort : SortRoutine) (s : state) (g : String) :
    mapGet (gatherPartitions sort s).tags g =
      if ((s.resources.flatMap (fun r => r.Tags.map (fun kv => (r.Address, kv)))).filter
          (fun e => tagGroupName e.2.1 e.2.2 = g)).isEmpty then none
      else some ((((s.resources.flatMap (fun r => r.Tags.map (fun kv => (r.Address, kv)))).filter
          (fun e => tagGroupName e.2.1 e.2.2 = g)).map Prod.fst).foldl appendUniq []) := by
  show mapGet (s.resources.foldl resourceBody _).tags g = _
  rw [foldl_resourceBody_tags, List.foldl_map]
  exact mapGet_foldl_update (fun e : String × String × String => tagGroupName e.2.1 e.2.2)
    (fun l (x : String × String × String) => appendUniq l x.1) _ [] g

theorem typeGroupName_eq_iff (r : Resource) (T : String) :
    typeGroupName r = "type_" ++ T ↔ r.resourceType = T := by
  unfold typeGroupName
  constructor
  · intro h
    have h' := congrArg String.data h
    simp only [String.data_append] at h'
    exact String.ext (List.append_cancel_left h')
  · intro h; rw [h]

theorem tagGroupName_eq (k v : String) :
    tagGroupName k v = if v = "" then k else k ++ "_" ++ v := by
  unfold tagGroupName
  by_cases h : v = "" <;> simp [h]

/-! ## The ordered partition -/

theorem foldl_concat {α : Type} (xs init : List α) :
    xs.foldl (fun l x => l ++ [x]) init = init ++ xs := by
  induction xs generalizing init with
  | nil => simp
  | cons x xs ih => rw [List.foldl_cons, ih]; simp

theorem foldl_concat_map {α β : Type} (f : α → β) (xs : List α) (init : List β) :
    xs.foldl (fun l x => l ++ [f x]) init = init ++ xs.map f := by
  induction xs generalizing init with
  | nil => simp
  | cons x xs ih => rw [List.foldl_cons, ih]; simp

/-- The working map `unsortedOrdered` after the resource loop: under each base name, the
resources with that base name, in list order. -/
theorem gatherPartitions_unsortedOrdered (sort : SortRoutine) (s : state) (b : String) :
    mapGet (gatherPartitions sort s).unsortedOrdered b =
      if (s.resources.filter (fun r => r.baseName = b)).isEmpty then none
      else some (s.resources.filter (fun r => r.baseName = b)) := by
  show mapGet (s.resources.foldl resourceBody _).unsortedOrdered b = _
  rw [foldl_resourceBody_unsortedOrdered]
  refine (mapGet_foldl_update (fun r : Resource => r.baseName)
    (fun l (x : Resource) => l ++ [x]) s.resources [] b).trans ?_
  rw [foldl_concat]
  rfl

theorem nodup_unsortedOrdered (sort : SortRoutine) (s : state) :
    (mapKeys (gatherPartitions sort s).unsortedOrdered).Nodup := by
  show (mapKeys (s.resources.foldl resourceBody _).unsortedOrdered).Nodup
  rw [foldl_resourceBody_unsortedOrdered]
  exact nodup_mapKeys_foldl_update (fun r : Resource => r.baseName)
    (fun l (x : Resource) => l ++ [x]) s.resources [] List.nodup_nil

/-- A sort routine leaves the counters in non-decreasing order. -/
theorem SortRoutine.pairwise (sort : SortRoutine) (cs : counterSorter) :
    (sort.run cs).resources.Pairwise (fun x y => x.counter ≤ y.counter) := by
  rw [List.pairwise_iff_getElem]
  intro i j hi hj hij
  have h := sort.ordered cs i j hij hj
  simp only [counterSorter.Less, List.get?_eq_getElem?, List.getElem?_eq_getElem hi,
    List.getElem?_eq_getElem hj, decide_eq_false_iff_not, not_lt] at h
  exact h

theorem SortRoutine.eq_nil_iff (sort : SortRoutine) (rs : List Resource) :
    (sort.run ⟨rs⟩).resources = [] ↔ rs = [] := by
  constructor
  · intro h
    have := sort.perm ⟨rs⟩
    rw [h] at this
    exact this.symm.eq_nil
  · intro h
    subst h
    exact (sort.perm ⟨[]⟩).eq_nil

theorem mapGet_orderedBody (sort : SortRoutine) (o : GoMap (List String)) (b : String)
    (rs : List Resource) (k : String) :
    mapGet (orderedBody sort o (b, rs)) k =
      if b = k ∧ rs ≠ [] then
        some (mapGetD o k ++ (sort.run ⟨rs⟩).resources.map Resource.Address)
      else mapGet o k := by
  unfold orderedBody
  refine (mapGet_foldl_update (fun _ : Resource => b)
    (fun l (x : Resource) => l ++ [x.Address]) (sort.run ⟨rs⟩).resources o k).trans ?_
  by_cases hb : b = k
  · subst hb
    by_cases hrs : rs = []
    · have h := (sort.eq_nil_iff rs).mpr hrs
      subst hrs
      simp [h]
    · have h : (sort.run ⟨rs⟩).resources ≠ [] := fun e => hrs ((sort.eq_nil_iff rs).mp e)
      simp [hrs, h, foldl_concat_map]
  · simp [hb]

theorem mapGetD_orderedBody_of_ne (sort : SortRoutine) (o : GoMap (List String)) (b : String)
    (rs : List Resource) (k : String) (h : b ≠ k) :
    mapGetD (orderedBody sort o (b, rs)) k = mapGetD o k := by
  unfold mapGetD
  rw [mapGet_orderedBody]
  simp [h]

/-- The loop over `unsortedOrdered`: the entry of a base name is extended by the addresses
of its resources, sorted. -/
theorem mapGet_foldl_orderedBody (sort : SortRoutine) (entries : GoMap (List Resource))
    (o : GoMap (List String)) (k : String) (hnd : (mapKeys entries).Nodup) :
    mapGet (entries.foldl (orderedBody sort) o) k =
      match mapGet entries k with
      | none => mapGet o k
      | some rs =>
        if rs = [] then mapGet o k
        else some (mapGetD o k ++ (sort.run ⟨rs⟩).resources.map Resource.Address) := by
  induction entries generalizing o with
  | nil => simp [mapGet]
  | cons e entries ih =>
    obtain ⟨b, rs⟩ := e
    simp only [mapKeys, List.map_cons, List.nodup_cons] at hnd
    rw [List.foldl_cons, ih _ hnd.2]
    by_cases hb : b = k
    · subst hb
      have hnone : mapGet entries b = none := (mapGet_eq_none_iff _ _).mpr hnd.1
      simp only [hnone, mapGet, if_true, mapGet_orderedBody, true_and]
      by_cases hrs : rs = [] <;> simp [hrs]
    · simp only [mapGet, hb, if_false]
      cases hg : mapGet entries k with
      | none => simp [mapGet_orderedBody, hb]
      | some rs' =>
        simp only [mapGet_orderedBody, hb, false_and, if_false,
          mapGetD_orderedBody_of_ne sort o b rs k hb]

theorem gatherPartitions_ordered (sort : SortRoutine) (s : state) (b : String) :
    mapGet (gatherPartitions sort s).ordered b =
      if (s.resources.filter (fun r => r.baseName = b)).isEmpty then none
      else some ((sort.run ⟨s.resources.filter (fun r => r.baseName = b)⟩).resources.map
        Resource.Address) := by
  have h1 : (gatherPartitions sort s).ordered =
      List.foldl (orderedBody sort)
        (s.resources.foldl resourceBody
          { all := { Hosts := [], Vars := [] }, types := [], individual := [], ordered := [],
            tags := [], unsortedOrdered := [], stderr := [] }).ordered
        (gatherPartitions sort s).unsortedOrdered := rfl
  rw [h1, foldl_resourceBody_ordered,
    mapGet_foldl_orderedBody _ _ _ _ (nodup_unsortedOrdered sort s),
    gatherPartitions_unsortedOrdered]
  cases hf : s.resources.filter (fun r => decide (r.baseName = b)) with
  | nil => simp [mapGet]
  | cons x xs => simp [mapGetD, mapGet]

/-! ## Merging the partitions -/

theorem nodup_mapKeys_foldl {α V : Type} (step : GoMap V → α → GoMap V)
    (hstep : ∀ m e, (mapKeys m).Nodup → (mapKeys (step m e)).Nodup)
    (es : List α) (m₀ : GoMap V) (h : (mapKeys m₀).Nodup) :
    (mapKeys (es.foldl step m₀)).Nodup := by
  induction es generalizing m₀ with
  | nil => simpa using h
  | cons e es ih => exact ih _ (hstep _ _ h)

theorem nodup_types (sort : SortRoutine) (s : state) :
    (mapKeys (gatherPartitions sort s).types).Nodup := by
  show (mapKeys (s.resources.foldl resourceBody _).types).Nodup
  rw [foldl_resourceBody_types]
  exact nodup_mapKeys_foldl _ (fun m e h => nodup_mapKeys_mapSet _ _ _ h) _ _ List.nodup_nil

theorem nodup_individual (sort : SortRoutine) (s : state) :
    (mapKeys (gatherPartitions sort s).individual).Nodup := by
  show (mapKeys (s.resources.foldl resourceBody _).individual).Nodup
  rw [foldl_resourceBody_individual]
  exact nodup_mapKeys_foldl _ (fun m e h => nodup_mapKeys_mapSet _ _ _ h) _ _ List.nodup_nil

theorem nodup_tags (sort : SortRoutine) (s : state) :
    (mapKeys (gatherPartitions sort s).tags).Nodup := by
  show (mapKeys (s.resources.foldl resourceBody _).tags).Nodup
  rw [foldl_resourceBody_tags]
  exact nodup_mapKeys_foldl _ (fun m e h => nodup_mapKeys_mapSet _ _ _ h) _ _ List.nodup_nil

theorem nodup_ordered (sort : SortRoutine) (s : state) :
    (mapKeys (gatherPartitions sort s).ordered).Nodup := by
  have h1 : (gatherPartitions sort s).ordered =
      List.foldl (orderedBody sort)
        (s.resources.foldl resourceBody
          { all := { Hosts := [], Vars := [] }, types := [], individual := [], ordered := [],
            tags := [], unsortedOrdered := [], stderr := [] }).ordered
        (gatherPartitions sort s).unsortedOrdered := rfl
  rw [h1, foldl_resourceBody_ordered]
  refine nodup_mapKeys_foldl _ (fun m e h => ?_) _ _ List.nodup_nil
  exact nodup_mapKeys_foldl _ (fun m e h => nodup_mapKeys_mapSet _ _ _ h) _ _ h

/-- The result map after one merge loop, without the log. -/
theorem mergePartition_fst (label : String) (part : GoMap (List String))
    (acc : GoMap GroupValue × List Diagnostic) :
    (mergePartition label part acc).1 =
      part.foldl (fun m kv => mapSet m kv.1 (GroupValue.hosts kv.2)) acc.1 := by
  unfold mergePartition
  induction part generalizing acc with
  | nil => rfl
  | cons kv part ih => rw [List.foldl_cons, List.foldl_cons, ih]

/-- A merge loop is last-writer-wins: the partition's value where it has the key, the
earlier value elsewhere. -/
theorem mapGet_mergePartition (label : String) (part : GoMap (List String))
    (acc : GoMap GroupValue × List Diagnostic) (k : String) (hnd : (mapKeys part).Nodup) :
    mapGet (mergePartition label part acc).1 k =
      match mapGet part k with
      | some v => some (GroupValue.hosts v)
      | none => mapGet acc.1 k := by
  rw [mergePartition_fst]
  generalize acc.1 = m
  induction part generalizing m with
  | nil => simp [mapGet]
  | cons e part ih =>
    obtain ⟨k₀, v₀⟩ := e
    simp only [mapKeys, List.map_cons, List.nodup_cons] at hnd
    rw [List.foldl_cons, ih hnd.2]
    by_cases hk : k₀ = k
    · subst hk
      have hnone : mapGet part k₀ = none := (mapGet_eq_none_iff _ _).mpr hnd.1
      simp [hnone, mapGet, mapGet_mapSet]
    · simp only [mapGet, hk, if_false, mapGet_mapSet]

theorem mem_mapKeys_mergePartition (label : String) (part : GoMap (List String))
    (acc : GoMap GroupValue × List Diagnostic) (k : String) :
    k ∈ mapKeys (mergePartition label part acc).1 ↔ k ∈ mapKeys acc.1 ∨ k ∈ mapKeys part := by
  rw [mergePartition_fst]
  generalize acc.1 = m
  induction part generalizing m with
  | nil => simp [mapKeys]
  | cons e part ih =>
    rw [List.foldl_cons, ih, mem_mapKeys_mapSet]
    simp only [mapKeys, List.map_cons, List.mem_cons]
    constructor
    · rintro ((h | h) | h)
      · exact Or.inr (Or.inl h)
      · exact Or.inl h
      · exact Or.inr (Or.inr h)
    · rintro (h | h | h)
      · exact Or.inl (Or.inr h)
      · exact Or.inl (Or.inl h)
      · exact Or.inr h

theorem nodup_mapKeys_mergePartition (label : String) (part : GoMap (List String))
    (acc : GoMap GroupValue × List Diagnostic) (h : (mapKeys acc.1).Nodup) :
    (mapKeys (mergePartition label part acc).1).Nodup := by
  rw [mergePartition_fst]
  exact nodup_mapKeys_foldl _ (fun m e h => nodup_mapKeys_mapSet _ _ _ h) _ _ h

/-! ## Decimal formatting -/

theorem digitChar_spec (d : Nat) (h : d < 10) :
    (Nat.digitChar d).toNat - 48 = d ∧ Nat.digitChar d ≠ '.' ∧ Nat.digitChar d ≠ '-' := by
  interval_cases d <;> decide

/-- The digits that `Nat.toDigitsCore` puts in front of its accumulator: decimal digit characters
whose value is the number. -/
theorem toDigitsCore_spec : ∀ (fuel n : Nat) (ds : List Char), n < fuel →
    ∃ l : List Char, Nat.toDigitsCore 10 fuel n ds = l ++ ds ∧ l ≠ [] ∧
      (∀ c ∈ l, c ≠ '.' ∧ c ≠ '-') ∧ l.foldl (fun acc c => acc * 10 + (c.toNat - 48)) 0 = n := by
  intro fuel
  induction fuel with
  | zero => intro n ds h; omega
  | succ fuel ih =>
    intro n ds h
    have hd := digitChar_spec (n % 10) (Nat.mod_lt _ (by decide))
    unfold Nat.toDigitsCore
    by_cases h0 : n / 10 = 0
    · refine ⟨[Nat.digitChar (n % 10)], by simp [h0], by simp, ?_, ?_⟩
      · intro c hc
        rw [List.mem_singleton] at hc
        subst hc
        exact hd.2
      · simp only [List.foldl_cons, List.foldl_nil, hd.1]
        omega
    · obtain ⟨l, hl, _, hc, hv⟩ := ih (n / 10) (Nat.digitChar (n % 10) :: ds) (by omega)
      refine ⟨l ++ [Nat.digitChar (n % 10)], by simp [h0, hl], by simp, ?_, ?_⟩
      · intro c hc'
        rcases List.mem_append.mp hc' with h' | h'
        · exact hc c h'
        · rw [List.mem_singleton] at h'
          subst h'
          exact hd.2
      · rw [List.foldl_append, hv]
        simp only [List.foldl_cons, List.foldl_nil, hd.1]
        omega

theorem natRepr_spec (n : Nat) :
    (Nat.repr n).data ≠ [] ∧ (∀ c ∈ (Nat.repr n).data, c ≠ '.' ∧ c ≠ '-') ∧
      (Nat.repr n).data.foldl (fun acc c => acc * 10 + (c.toNat - 48)) 0 = n := by
  obtain ⟨l, hl, hne, hc, hv⟩ := toDigitsCore_spec (n + 1) n [] (Nat.lt_succ_self n)
  have : (Nat.repr n).data = l := by
    simp [Nat.repr, Nat.toDigits, hl, List.asString]
  rw [this]
  exact ⟨hne, hc, hv⟩

theorem natRepr_injective {a b : Nat} (h : Nat.repr a = Nat.repr b) : a = b := by
  have ha := (natRepr_spec a).2.2
  have hb := (natRepr_spec b).2.2
  rw [h] at ha
  exact ha.symm.trans hb

theorem intToString_data (c : Int) :
    (toString c).data = match c with
      | Int.ofNat m => (Nat.repr m).data
      | Int.negSucc m => '-' :: (Nat.repr (m + 1)).data := by
  cases c <;> rfl

theorem intToString_no_dot (c : Int) : '.' ∉ (toString c).data := by
  rw [intToString_data]
  cases c with
  | ofNat m => exact fun h => ((natRepr_spec m).2.1 _ h).1 rfl
  | negSucc m =>
    intro h
    rcases List.mem_cons.mp h with h | h
    · exact absurd h (by decide)
    · exact ((natRepr_spec (m + 1)).2.1 _ h).1 rfl

theorem intToString_injective {a b : Int} (h : toString a = toString b) : a = b := by
  have h' := congrArg String.data h
  rw [intToString_data, intToString_data] at h'
  cases a with
  | ofNat m =>
    cases b with
    | ofNat n =>
      have : Nat.repr m = Nat.repr n := String.ext h'
      rw [natRepr_injective this]
    | negSucc n =>
      exfalso
      simp only at h'
      have h1 := (natRepr_spec m).2.1
      rw [h'] at h1
      exact (h1 '-' (List.mem_cons_self _ _)).2 rfl
  | negSucc m =>
    cases b with
    | ofNat n =>
      exfalso
      simp only at h'
      have h1 := (natRepr_spec n).2.1
      rw [← h'] at h1
      exact (h1 '-' (List.mem_cons_self _ _)).2 rfl
    | negSucc n =>
      simp only [List.cons.injEq, true_and] at h'
      have : Nat.repr (m + 1) = Nat.repr (n + 1) := String.ext h'
      have := natRepr_injective this
      have : m = n := by omega
      rw [this]

/-- A list is split in one way only at the last occurrence of an element. -/
theorem append_cons_inj_of_not_mem_right {α : Type} {a : α} :
    ∀ {l₁ l₂ r₁ r₂ : List α}, a ∉ r₁ → a ∉ r₂ → l₁ ++ a :: r₁ = l₂ ++ a :: r₂ →
      l₁ = l₂ ∧ r₁ = r₂ := by
  intro l₁
  induction l₁ with
  | nil =>
    intro l₂ r₁ r₂ h₁ h₂ h
    cases l₂ with
    | nil => simpa using h
    | cons x l₂ =>
      exfalso
      simp only [List.nil_append, List.cons_append, List.cons.injEq] at h
      exact h₁ (h.2 ▸ List.mem_append_right _ (List.mem_cons_self _ _))
  | cons y l₁ ih =>
    intro l₂ r₁ r₂ h₁ h₂ h
    cases l₂ with
    | nil =>
      exfalso
      simp only [List.nil_append, List.cons_append, List.cons.injEq] at h
      exact h₂ (h.2 ▸ List.mem_append_right _ (List.mem_cons_self _ _))
    | cons x l₂ =>
      simp only [List.cons_append, List.cons.injEq] at h
      obtain ⟨h3, h4⟩ := ih h₁ h₂ h.2
      exact ⟨by rw [h.1, h3], h4⟩

/-! ## The individual partition -/

theorem invdGroupName_data (r : Resource) :
    (invdGroupName r).data = r.baseName.data ++ '.' :: (toString r.counter).data := by
  unfold invdGroupName
  simp only [String.data_append]
  rw [List.append_assoc]
  rfl

/-- The name `baseName.counter` determines the base name and the counter. -/
theorem invdGroupName_eq_iff (r r' : Resource) :
    invdGroupName r = invdGroupName r' ↔
      r.baseName = r'.baseName ∧ r.counter = r'.counter := by
  constructor
  · intro h
    have h' := congrArg String.data h
    rw [invdGroupName_data, invdGroupName_data] at h'
    obtain ⟨h1, h2⟩ := append_cons_inj_of_not_mem_right (intToString_no_dot _)
      (intToString_no_dot _) h'
    exact ⟨String.ext h1, intToString_injective (String.ext h2)⟩
  · rintro ⟨h1, h2⟩
    unfold invdGroupName
    rw [h1, h2]

theorem foldl_singleton_last {α β : Type} (f : α → β) (xs : List α) (init : List β) :
    xs.foldl (fun _ x => [f x]) init =
      match xs.getLast? with
      | none => init
      | some x => [f x] := by
  induction xs generalizing init with
  | nil => rfl
  | cons x xs ih =>
    rw [List.foldl_cons, ih]
    cases xs with
    | nil => rfl
    | cons y ys =>
      rw [List.getLast?_cons_cons]
      have hsome : ((y :: ys).getLast?).isSome := by
        rw [List.getLast?_isSome]; simp
      cases hl : (y :: ys).getLast? with
      | none => rw [hl] at hsome; simp at hsome
      | some z => rfl

/-- The entry of the individual partition for a group name: the address of the last resource
with that individual group name. -/
theorem gatherPartitions_individual (sort : SortRoutine) (s : state) (g : String) :
    mapGet (gatherPartitions sort s).individual g =
      match (s.resources.filter (fun r => invdGroupName r = g)).getLast? with
      | none => none
      | some r => some [r.Address] := by
  show mapGet (s.resources.foldl resourceBody _).individual g = _
  rw [foldl_resourceBody_individual]
  refine (mapGet_foldl_update (fun r : Resource => invdGroupName r)
    (fun (_ : List String) (x : Resource) => [x.Address]) s.resources [] g).trans ?_
  rw [foldl_singleton_last]
  cases hf : s.resources.filter (fun r => decide (invdGroupName r = g)) with
  | nil => simp [mapGet]
  | cons x xs =>
    have : ((x :: xs).getLast?).isSome := by
      rw [List.getLast?_isSome]; simp
    cases hl : (x :: xs).getLast? with
    | none => rw [hl] at this; simp at this
    | some y => simp

/-! ## Independence of the iteration order and of the sort routine -/

/-- The iteration bound of `searchLoop` is never reached: any two bounds of at least `j - i`
give the same result. -/
theorem searchLoop_fuel (f : Nat → Bool) :
    ∀ fuel fuel' i j, j - i ≤ fuel → j - i ≤ fuel' →
      searchLoop f fuel i j = searchLoop f fuel' i j := by
  intro fuel
  induction fuel with
  | zero =>
    intro fuel' i j h h'
    cases fuel' with
    | zero => rfl
    | succ n =>
      have : ¬ i < j := by omega
      simp [searchLoop, this]
  | succ fuel ih =>
    intro fuel' i j h h'
    cases fuel' with
    | zero =>
      have : ¬ i < j := by omega
      simp [searchLoop, this]
    | succ n =>
      unfold searchLoop
      by_cases hlt : i < j
      · simp only [hlt, if_true]
        by_cases hf : f ((i + j) / 2) = true
        · simp only [hf, Bool.not_true, Bool.false_eq_true, if_false]
          exact ih n i ((i + j) / 2) (by omega) (by omega)
        · have hf' : f ((i + j) / 2) = false := by simpa using hf
          simp only [hf', Bool.not_false, if_true]
          exact ih n ((i + j) / 2 + 1) j (by omega) (by omega)
      · simp only [hlt, if_false]

/-- The lookup in a map does not depend on the order in which its entries are kept. -/
theorem mapGet_perm {V : Type} {m m' : GoMap V} (hp : m.Perm m') (hnd : (mapKeys m).Nodup)
    (k : String) : mapGet m k = mapGet m' k := by
  induction hp with
  | nil => rfl
  | cons x _ ih =>
    obtain ⟨k₀, v₀⟩ := x
    simp only [mapKeys, List.map_cons, List.nodup_cons] at hnd
    simp only [mapGet]
    rw [ih hnd.2]
  | swap x y l =>
    obtain ⟨k₁, v₁⟩ := x
    obtain ⟨k₂, v₂⟩ := y
    simp only [mapKeys, List.map_cons, List.nodup_cons, List.mem_cons, not_or] at hnd
    simp only [mapGet]
    by_cases h1 : k₁ = k
    · by_cases h2 : k₂ = k
      · exact absurd (h2.trans h1.symm) hnd.1.1
      · simp [h1, h2]
    · simp [h1]
  | trans h₁ _ ih₁ ih₂ =>
    rw [ih₁ hnd, ih₂ ((h₁.map Prod.fst).nodup_iff.mp hnd)]

/-- A merge loop gives the same result map whatever the order in which `range` visits the
partition. -/
theorem mapGet_mergePartition_perm (label : String) (part part' : GoMap (List String))
    (acc : GoMap GroupValue × List Diagnostic) (k : String) (hp : part.Perm part')
    (hnd : (mapKeys part).Nodup) :
    mapGet (mergePartition label part' acc).1 k = mapGet (mergePartition label part acc).1 k := by
  rw [mapGet_mergePartition _ _ _ _ hnd,
    mapGet_mergePartition _ _ _ _ ((hp.map Prod.fst).nodup_iff.mp hnd), mapGet_perm hp hnd]

/-- The loop over `unsortedOrdered` gives the same ordered partition whatever the order in
which `range` visits the base names. -/
theorem mapGet_foldl_orderedBody_perm (sort : SortRoutine) (entries entries' : GoMap (List Resource))
    (o : GoMap (List String)) (k : String) (hp : entries.Perm entries')
    (hnd : (mapKeys entries).Nodup) :
    mapGet (entries'.foldl (orderedBody sort) o) k =
      mapGet (entries.foldl (orderedBody sort) o) k := by
  rw [mapGet_foldl_orderedBody _ _ _ _ hnd,
    mapGet_foldl_orderedBody _ _ _ _ ((hp.map Prod.fst).nodup_iff.mp hnd), mapGet_perm hp hnd]

/-- Two rearrangements of a slice with distinct counters that are both ordered by counter are
equal: on such a slice every sort routine returns the same result. -/
theorem SortRoutine.run_eq_of_nodup (sort sort' : SortRoutine) (rs : List Resource)
    (hnd : (rs.map Resource.counter).Nodup) :
    (sort.run ⟨rs⟩).resources = (sort'.run ⟨rs⟩).resources := by
  have hstrict : ∀ (t : SortRoutine),
      (t.run ⟨rs⟩).resources.Pairwise (fun x y => x.counter < y.counter) := by
    intro t
    have h1 := t.pairwise ⟨rs⟩
    have h2 : ((t.run ⟨rs⟩).resources.map Resource.counter).Nodup :=
      (((t.perm ⟨rs⟩).map Resource.counter).nodup_iff).mpr hnd
    rw [List.Nodup, List.pairwise_map] at h2
    exact (h1.and h2).imp (fun h => lt_of_le_of_ne h.1 h.2)
  haveI : IsAntisymm Resource (fun x y => x.counter < y.counter) :=
    ⟨fun a b h h' => absurd h' (not_lt_of_gt h)⟩
  exact List.eq_of_perm_of_sorted ((sort.perm ⟨rs⟩).trans (sort'.perm ⟨rs⟩).symm)
    (hstrict sort) (hstrict sort')

/-! ## The contract of the uniqueness helper -/

/-- C7: on a duplicate-free slice, sorted or not, `appendUniq` returns a duplicate-free slice
that contains the item exactly once and has exactly the elements of the slice together with
the item; its length is that of the slice when the item was present and one more otherwise. -/
theorem appendUniq_nodup_contains (strs : List String) (item : String) (h : strs.Nodup) :
    (appendUniq strs item).Nodup ∧ (appendUniq strs item).count item = 1 ∧
      (∀ x, x ∈ appendUniq strs item ↔ x ∈ strs ∨ x = item) ∧
      (appendUniq strs item).length = if item ∈ strs then strs.length else strs.length + 1 := by
  have hnd := nodup_appendUniq item h
  refine ⟨hnd, ?_, fun x => mem_appendUniq, length_appendUniq strs item⟩
  exact List.count_eq_one_of_mem hnd (mem_appendUniq.mpr (Or.inr rfl))

theorem appendUniq_nodup_contains_witness :
    (["b", "a"] : List String).Nodup ∧
      ((appendUniq ["b", "a"] "c").Nodup ∧ (appendUniq ["b", "a"] "c").count "c" = 1 ∧
        (∀ x, x ∈ appendUniq ["b", "a"] "c" ↔ x ∈ ["b", "a"] ∨ x = "c") ∧
        (appendUniq ["b", "a"] "c").length =
          if "c" ∈ ["b", "a"] then ["b", "a"].length else ["b", "a"].length + 1) :=
  ⟨by decide, appendUniq_nodup_contains ["b", "a"] "c" (by decide)⟩

/-- C8, as stated, fails: the slice `["b"]` is ascending, and `appendUniq(["b"], "a")` is
`["b", "a"]`, which is not. -/
theorem appendUniq_sorted_counterexample :
    (["b"] : List String).Sorted strLE ∧ appendUniq ["b"] "a" = ["b", "a"] ∧
      ¬ (appendUniq ["b"] "a").Sorted strLE := by
  decide

/-- C8, amended: on an ascending slice `appendUniq` returns the slice itself when the item is
present and the slice followed by the item otherwise, and this result is ascending exactly
when the item is present or no element of the slice is greater than the item. -/
theorem appendUniq_sorted_iff (strs : List String) (item : String) (h : strs.Sorted strLE) :
    appendUniq strs item = (if item ∈ strs then strs else strs ++ [item]) ∧
      ((appendUniq strs item).Sorted strLE ↔ item ∈ strs ∨ ∀ x ∈ strs, strLE x item) := by
  have hsort : sortStrings strs = strs := List.Sorted.insertionSort_eq h
  have heq : appendUniq strs item = if item ∈ strs then strs else strs ++ [item] := by
    rw [appendUniq_eq, hsort]
    by_cases h0 : strs = []
    · subst h0; simp
    · simp [h0]
  refine ⟨heq, ?_⟩
  rw [heq]
  by_cases hm : item ∈ strs
  · simp [hm, h]
  · simp only [hm, if_false, false_or]
    unfold List.Sorted
    rw [List.pairwise_append]
    constructor
    · intro hp x hx
      exact hp.2.2 x hx item (List.mem_singleton_self _)
    · intro hall
      refine ⟨h, List.pairwise_singleton _ _, ?_⟩
      intro x hx y hy
      rw [List.mem_singleton] at hy
      subst hy
      exact hall x hx

theorem appendUniq_sorted_iff_witness :
    (["a", "b"] : List String).Sorted strLE ∧
      (appendUniq ["a", "b"] "c" = (if "c" ∈ ["a", "b"] then ["a", "b"] else ["a", "b"] ++ ["c"]) ∧
        ((appendUniq ["a", "b"] "c").Sorted strLE ↔
          "c" ∈ ["a", "b"] ∨ ∀ x ∈ ["a", "b"], strLE x "c")) :=
  ⟨by decide, appendUniq_sorted_iff ["a", "b"] "c" (by decide)⟩

/-- C9: when the slice already contains the item, `appendUniq` returns the ascending sort of
the slice (an ascending rearrangement of it), with the length of the slice. -/
theorem appendUniq_of_mem (strs : List String) (item : String) (h : item ∈ strs) :
    appendUniq strs item = sortStrings strs ∧ (appendUniq strs item).Sorted strLE ∧
      (appendUniq strs item).Perm strs ∧ (appendUniq strs item).length = strs.length := by
  have h0 : strs ≠ [] := List.ne_nil_of_mem h
  have heq : appendUniq strs item = sortStrings strs := by
    rw [appendUniq_eq]; simp [h0, h]
  rw [heq]
  exact ⟨rfl, sortStrings_sorted strs, sortStrings_perm strs, length_sortStrings strs⟩

theorem appendUniq_of_mem_witness :
    "a" ∈ ["b", "a"] ∧
      (appendUniq ["b", "a"] "a" = ["a", "b"] ∧
        (appendUniq ["b", "a"] "a").Sorted strLE ∧ (appendUniq ["b", "a"] "a").Perm ["b", "a"] ∧
        (appendUniq ["b", "a"] "a").length = ["b", "a"].length) :=
  ⟨by decide, appendUniq_of_mem ["b", "a"] "a" (by decide)⟩

/-- The example of C9: inserting `"a"` into `["b", "a"]` gives `["a", "b"]`. -/
theorem appendUniq_example : appendUniq ["b", "a"] "a" = ["a", "b"] := by
  decide

/-! ## Groups accumulated through `appendUniq` -/

/-- A group accumulated through `appendUniq` over the selected elements of a list: it exists
when an element is selected, is duplicate-free, and holds the addresses of the selected
elements. -/
theorem group_lookup {α : Type} (es : List α) (p : α → Bool) (f : α → String)
    (v : Option (List String))
    (hv : v = if (es.filter p).isEmpty then none
      else some (((es.filter p).map f).foldl appendUniq [])) :
    (v = none ↔ ∀ e ∈ es, p e = false) ∧
      (∀ l, v = some l → l.Nodup ∧ l.dropLast.Sorted strLE ∧
        ∀ a, a ∈ l ↔ ∃ e ∈ es, p e = true ∧ f e = a) := by
  subst hv
  cases hf : es.filter p with
  | nil =>
    simp only [List.isEmpty_nil, if_true, true_iff]
    refine ⟨?_, fun l hl => by simp at hl⟩
    intro e he
    by_contra hp
    have : e ∈ es.filter p := List.mem_filter.mpr ⟨he, by simpa using hp⟩
    rw [hf] at this
    simp at this
  | cons x xs =>
    simp only [List.isEmpty_cons, Bool.false_eq_true, if_false]
    have hx : x ∈ es.filter p := by rw [hf]; exact List.mem_cons_self _ _
    refine ⟨?_, ?_⟩
    · simp only [reduceCtorEq, false_iff, not_forall]
      exact ⟨x, (List.mem_filter.mp hx).1, by simp [(List.mem_filter.mp hx).2]⟩
    · intro l hl
      simp only [Option.some.injEq] at hl
      subst hl
      refine ⟨nodup_foldl_appendUniq _ _ List.nodup_nil,
        sorted_dropLast_foldl_appendUniq _, ?_⟩
      intro a
      rw [mem_foldl_appendUniq, ← hf]
      simp only [List.not_mem_nil, false_or, List.mem_map, List.mem_filter]
      constructor
      · rintro ⟨e, ⟨he, hp⟩, rfl⟩
        exact ⟨e, he, hp, rfl⟩
      · rintro ⟨e, he, hp, rfl⟩
        exact ⟨e, ⟨he, hp⟩, rfl⟩

/-! ## The partitions of `gatherResources` -/

/-- C1: the host list of the all partition holds the Address of every resource exactly once,
also when several resources have the same Address, and holds nothing that is not the Address
of a resource. -/
theorem allHosts_exactly_addresses (sort : SortRoutine) (s : state) :
    (∀ r ∈ s.resources, (gatherPartitions sort s).all.Hosts.count r.Address = 1) ∧
      (∀ a ∈ (gatherPartitions sort s).all.Hosts, ∃ r ∈ s.resources, r.Address = a) := by
  rw [gatherPartitions_hosts]
  have hnd := nodup_foldl_appendUniq (s.resources.map Resource.Address) [] List.nodup_nil
  constructor
  · intro r hr
    refine List.count_eq_one_of_mem hnd ?_
    rw [mem_foldl_appendUniq]
    exact Or.inr (List.mem_map.mpr ⟨r, hr, rfl⟩)
  · intro a ha
    rw [mem_foldl_appendUniq] at ha
    rcases ha with ha | ha
    · simp at ha
    · obtain ⟨r, hr, rfl⟩ := List.mem_map.mp ha
      exact ⟨r, hr, rfl⟩

/-- C2: for a base name that occurs, the ordered partition holds under it the addresses of
a rearrangement of exactly the resources with that base name, one entry per resource, with
non-decreasing counters. -/
theorem ordered_sorted_by_counter (sort : SortRoutine) (s : state) (b : String)
    (hb : ∃ r ∈ s.resources, r.baseName = b) :
    ∃ l : List Resource, l.Perm (s.resources.filter (fun r => r.baseName = b)) ∧
      l.Pairwise (fun x y => x.counter ≤ y.counter) ∧
      mapGet (gatherPartitions sort s).ordered b = some (l.map Resource.Address) := by
  refine ⟨(sort.run ⟨s.resources.filter (fun r => r.baseName = b)⟩).resources,
    sort.perm _, sort.pairwise _, ?_⟩
  rw [gatherPartitions_ordered]
  obtain ⟨r, hr, hrb⟩ := hb
  have hmem : r ∈ s.resources.filter (fun r => r.baseName = b) :=
    List.mem_filter.mpr ⟨hr, by simpa using hrb⟩
  cases hf : s.resources.filter (fun r => decide (r.baseName = b)) with
  | nil => rw [hf] at hmem; simp at hmem
  | cons x xs => simp

theorem ordered_sorted_by_counter_witness :
    (∃ r ∈ exampleWeb.resources, r.baseName = "web") ∧
      ∃ l : List Resource, l.Perm (exampleWeb.resources.filter (fun r => r.baseName = "web")) ∧
        l.Pairwise (fun x y => x.counter ≤ y.counter) ∧
        mapGet (gatherPartitions insertionSortRoutine exampleWeb).ordered "web" =
          some (l.map Resource.Address) :=
  ⟨by decide, ordered_sorted_by_counter insertionSortRoutine exampleWeb "web" (by decide)⟩

/-- The example of C2, for every sort routine: the resources `web` listed with the counters
2, 0, 1 give the addresses of the counters 0, 1, 2 in that order. -/
theorem ordered_example (sort : SortRoutine) :
    mapGet (gatherPartitions sort exampleWeb).ordered "web" =
      some ["10.0.0.0", "10.0.0.1", "10.0.0.2"] := by
  rw [gatherPartitions_ordered]
  have hf : exampleWeb.resources.filter (fun r => decide (r.baseName = "web")) =
      exampleWeb.resources := by decide
  rw [hf, sort.run_eq_of_nodup insertionSortRoutine exampleWeb.resources (by decide)]
  decide

/-- C3: the value of a group name in the result of `gatherResources` is the tag partition's
where the tag partition has the name, else the type partition's, else the ordered
partition's, else the individual partition's, else the all structure for the name `all`; and
the keys of the result are `all` and the keys of the four partitions. -/
theorem gatherResources_last_writer_wins (sort : SortRoutine) (s : state) (k : String) :
    mapGet (gatherResources sort s).1 k =
        (match mapGet (gatherPartitions sort s).tags k with
        | some v => some (GroupValue.hosts v)
        | none =>
          match mapGet (gatherPartitions sort s).types k with
          | some v => some (GroupValue.hosts v)
          | none =>
            match mapGet (gatherPartitions sort s).ordered k with
            | some v => some (GroupValue.hosts v)
            | none =>
              match mapGet (gatherPartitions sort s).individual k with
              | some v => some (GroupValue.hosts v)
              | none =>
                if k = "all" then some (GroupValue.all (gatherPartitions sort s).all)
                else none) ∧
      (k ∈ mapKeys (gatherResources sort s).1 ↔
        k = "all" ∨ k ∈ mapKeys (gatherPartitions sort s).individual ∨
          k ∈ mapKeys (gatherPartitions sort s).ordered ∨
          k ∈ mapKeys (gatherPartitions sort s).types ∨
          k ∈ mapKeys (gatherPartitions sort s).tags) ∧
      (mapKeys (gatherResources sort s).1).Nodup := by
  unfold gatherResources
  refine ⟨?_, ?_, ?_⟩
  · simp only []
    rw [mapGet_mergePartition _ _ _ _ (nodup_tags sort s),
      mapGet_mergePartition _ _ _ _ (nodup_types sort s),
      mapGet_mergePartition _ _ _ _ (nodup_ordered sort s),
      mapGet_mergePartition _ _ _ _ (nodup_individual sort s), mapGet_mapSet]
    simp only [mapGet, eq_comm]
  · simp only []
    rw [mem_mapKeys_mergePartition, mem_mapKeys_mergePartition, mem_mapKeys_mergePartition,
      mem_mapKeys_mergePartition, mem_mapKeys_mapSet]
    simp [mapKeys, or_assoc]
  · simp only []
    refine nodup_mapKeys_mergePartition _ _ _ (nodup_mapKeys_mergePartition _ _ _
      (nodup_mapKeys_mergePartition _ _ _ (nodup_mapKeys_mergePartition _ _ _ ?_)))
    exact nodup_mapKeys_mapSet _ _ _ List.nodup_nil

/-- The collisions of C3 on an example: the tag group `web` replaces the ordered group `web`,
and the tag group `all` replaces the all structure. -/
theorem gatherResources_collision_example :
    mapGet (gatherResources insertionSortRoutine exampleCollision).1 "web" =
        some (GroupValue.hosts ["10.0.0.1", "10.0.0.2"]) ∧
      mapGet (gatherPartitions insertionSortRoutine exampleCollision).ordered "web" =
        some ["10.0.0.1"] ∧
      mapGet (gatherResources insertionSortRoutine exampleCollision).1 "all" =
        some (GroupValue.hosts ["10.0.0.1"]) ∧
      mapGet (gatherResources insertionSortRoutine exampleCollision).1 "type_aws_instance" =
        some (GroupValue.hosts ["10.0.0.1"]) := by
  decide

/-- C4: the tag partition has a group `g` that contains the address `a` exactly when some
resource with Address `a` carries a tag `k = v` with `g = k` for an empty `v` and
`g = k_v` otherwise; and no tag group lists an address twice. -/
theorem tags_membership (sort : SortRoutine) (s : state) :
    (∀ g a, (∃ l, mapGet (gatherPartitions sort s).tags g = some l ∧ a ∈ l) ↔
        ∃ r ∈ s.resources, r.Address = a ∧
          ∃ kv ∈ r.Tags, g = if kv.2 = "" then kv.1 else kv.1 ++ "_" ++ kv.2) ∧
      (∀ g l, mapGet (gatherPartitions sort s).tags g = some l → l.Nodup) := by
  have key := fun g => group_lookup
    (s.resources.flatMap (fun r => r.Tags.map (fun kv => (r.Address, kv))))
    (fun e => decide (tagGroupName e.2.1 e.2.2 = g)) Prod.fst _
    (gatherPartitions_tags sort s g)
  constructor
  · intro g a
    constructor
    · rintro ⟨l, hl, ha⟩
      obtain ⟨e, he, hp, hfa⟩ := (((key g).2 l hl).2.2 a).mp ha
      obtain ⟨r, hr, hmap⟩ := List.mem_flatMap.mp he
      obtain ⟨kv, hkv, rfl⟩ := List.mem_map.mp hmap
      refine ⟨r, hr, hfa, kv, hkv, ?_⟩
      rw [← tagGroupName_eq]
      exact (of_decide_eq_true hp).symm
    · rintro ⟨r, hr, hra, kv, hkv, hg⟩
      have he : (r.Address, kv) ∈
          s.resources.flatMap (fun r => r.Tags.map (fun kv => (r.Address, kv))) :=
        List.mem_flatMap.mpr ⟨r, hr, List.mem_map.mpr ⟨kv, hkv, rfl⟩⟩
      have hp : decide (tagGroupName kv.1 kv.2 = g) = true := by
        rw [tagGroupName_eq, ← hg]; simp
      cases hv : mapGet (gatherPartitions sort s).tags g with
      | none =>
        have := (key g).1.mp hv _ he
        simp only at this
        rw [hp] at this
        exact absurd this (by simp)
      | some l =>
        exact ⟨l, rfl, (((key g).2 l hv).2.2 a).mpr ⟨_, he, hp, hra⟩⟩
  · intro g l hl
    exact ((key g).2 l hl).1

/-- The example of the tag naming rule of C4: the tag `env = prod` gives the group `env_prod`,
the valueless tag `solo` gives the group `solo`. -/
theorem tags_example :
    mapGet (gatherPartitions insertionSortRoutine exampleWeb).tags "env_prod" =
        some ["10.0.0.2", "10.0.0.0"] ∧
      mapGet (gatherPartitions insertionSortRoutine exampleWeb).tags "solo" =
        some ["10.0.0.2"] ∧
      mapKeys (gatherPartitions insertionSortRoutine exampleWeb).tags = ["env_prod", "solo"] := by
  decide

/-- C5: for a resource type `T` that some resource has, the type partition maps `type_T` to a
duplicate-free list whose members are exactly the Addresses of the resources of type `T`;
for a type that no resource has there is no group; and every group of the type partition is
named after the type of a resource. -/
theorem types_membership (sort : SortRoutine) (s : state) (T : String) :
    ((∃ r ∈ s.resources, r.resourceType = T) →
        ∃ l, mapGet (gatherPartitions sort s).types ("type_" ++ T) = some l ∧ l.Nodup ∧
          ∀ a, a ∈ l ↔ ∃ r ∈ s.resources, r.resourceType = T ∧ r.Address = a) ∧
      ((¬ ∃ r ∈ s.resources, r.resourceType = T) →
        mapGet (gatherPartitions sort s).types ("type_" ++ T) = none) ∧
      (∀ k ∈ mapKeys (gatherPartitions sort s).types,
        ∃ r ∈ s.resources, k = "type_" ++ r.resourceType) := by
  have key := fun g => group_lookup s.resources
    (fun r => decide (typeGroupName r = g)) Resource.Address _
    (gatherPartitions_types sort s g)
  refine ⟨?_, ?_, ?_⟩
  · rintro ⟨r, hr, hrT⟩
    cases hv : mapGet (gatherPartitions sort s).types ("type_" ++ T) with
    | none =>
      have := (key _).1.mp hv r hr
      simp only [decide_eq_false_iff_not, typeGroupName_eq_iff] at this
      exact absurd hrT this
    | some l =>
      refine ⟨l, rfl, ((key _).2 l hv).1, fun a => ?_⟩
      rw [((key _).2 l hv).2.2 a]
      simp only [decide_eq_true_eq, typeGroupName_eq_iff]
  · intro hno
    rw [(key _).1]
    intro e he
    simp only [decide_eq_false_iff_not, typeGroupName_eq_iff]
    exact fun h => hno ⟨e, he, h⟩
  · intro k hk
    rw [← mapGet_isSome_iff] at hk
    by_contra hno
    have hnone : mapGet (gatherPartitions sort s).types k = none := by
      rw [(key k).1]
      intro e he
      simp only [decide_eq_false_iff_not]
      exact fun h => hno ⟨e, he, h.symm⟩
    rw [hnone] at hk
    simp at hk

theorem types_membership_witness :
    (∃ r ∈ exampleRepeated.resources, r.resourceType = "aws_instance") ∧
      ∃ l, mapGet (gatherPartitions insertionSortRoutine exampleRepeated).types
          ("type_" ++ "aws_instance") = some l ∧ l.Nodup ∧
        ∀ a, a ∈ l ↔ ∃ r ∈ exampleRepeated.resources,
          r.resourceType = "aws_instance" ∧ r.Address = a :=
  ⟨by decide, (types_membership insertionSortRoutine exampleRepeated "aws_instance").1
    (by decide)⟩

/-- C6: for a resource of the list, the individual partition maps `baseName.counter` to a
single-element list holding the Address of the last resource of the list with that base name
and counter; that is the Address of the resource itself when no later resource has the same
base name and counter. -/
theorem individual_last_wins (sort : SortRoutine) (s : state) (r : Resource)
    (hr : r ∈ s.resources) :
    (∃ r', (s.resources.filter
          (fun x => x.baseName = r.baseName ∧ x.counter = r.counter)).getLast? = some r' ∧
        mapGet (gatherPartitions sort s).individual (r.baseName ++ "." ++ toString r.counter) =
          some [r'.Address]) ∧
      (∀ pre post, s.resources = pre ++ r :: post →
        (∀ x ∈ post, ¬ (x.baseName = r.baseName ∧ x.counter = r.counter)) →
        mapGet (gatherPartitions sort s).individual (r.baseName ++ "." ++ toString r.counter) =
          some [r.Address]) := by
  have hname : r.baseName ++ "." ++ toString r.counter = invdGroupName r := rfl
  have hfilter : s.resources.filter (fun x => decide (invdGroupName x = invdGroupName r)) =
      s.resources.filter (fun x => decide (x.baseName = r.baseName ∧ x.counter = r.counter)) := by
    congr 1
    funext x
    simp only [invdGroupName_eq_iff]
  rw [hname, gatherPartitions_individual, hfilter]
  constructor
  · have hmem : r ∈ s.resources.filter
        (fun x => decide (x.baseName = r.baseName ∧ x.counter = r.counter)) :=
      List.mem_filter.mpr ⟨hr, by simp⟩
    cases hl : (s.resources.filter
        (fun x => decide (x.baseName = r.baseName ∧ x.counter = r.counter))).getLast? with
    | none =>
      rw [List.getLast?_eq_none_iff] at hl
      rw [hl] at hmem
      simp at hmem
    | some r' => exact ⟨r', rfl, rfl⟩
  · intro pre post hs hpost
    have hnil : post.filter
        (fun x => decide (x.baseName = r.baseName ∧ x.counter = r.counter)) = [] := by
      rw [List.filter_eq_nil_iff]
      intro x hx
      simpa using hpost x hx
    have hself : decide (r.baseName = r.baseName ∧ r.counter = r.counter) = true := by simp
    rw [hs, List.filter_append, List.filter_cons, hnil, if_pos hself, List.getLast?_append]
    rfl

theorem individual_last_wins_witness :
    (⟨"web", "aws_instance", 3, "10.0.0.7", [], []⟩ : Resource) ∈ exampleRepeated.resources ∧
      ((∃ r', (exampleRepeated.resources.filter
            (fun x => x.baseName = "web" ∧ x.counter = 3)).getLast? = some r' ∧
          mapGet (gatherPartitions insertionSortRoutine exampleRepeated).individual "web.3" =
            some [r'.Address]) ∧
        (∀ pre post, exampleRepeated.resources =
            pre ++ (⟨"web", "aws_instance", 3, "10.0.0.7", [], []⟩ : Resource) :: post →
          (∀ x ∈ post, ¬ (x.baseName = "web" ∧ x.counter = 3)) →
          mapGet (gatherPartitions insertionSortRoutine exampleRepeated).individual "web.3" =
            some ["10.0.0.7"])) :=
  ⟨by decide, individual_last_wins insertionSortRoutine exampleRepeated
    ⟨"web", "aws_instance", 3, "10.0.0.7", [], []⟩ (by decide)⟩

/-- The example of C6: of the two resources `web` with the counter 3, the group `web.3` holds
the address of the later one. -/
theorem individual_example :
    mapGet (gatherPartitions insertionSortRoutine exampleRepeated).individual "web.3" =
        some ["10.0.0.8"] ∧
      mapGet (gatherPartitions insertionSortRoutine exampleRepeated).individual "db.0" =
        some ["10.0.0.9"] := by
  decide

/-! ## The order of the accumulated host lists -/

theorem sorted_foldl_appendUniq_aux (as init : List String) (hinit : init.Sorted strLE)
    (has : as.Sorted strLE) (hle : ∀ x ∈ init, ∀ y ∈ as, strLE x y) :
    (as.foldl appendUniq init).Sorted strLE := by
  induction as generalizing init with
  | nil => simpa using hinit
  | cons a as ih =>
    rw [List.foldl_cons]
    have hsort : sortStrings init = init := List.Sorted.insertionSort_eq hinit
    have has' : as.Sorted strLE := (List.pairwise_cons.mp has).2
    have ha : ∀ y ∈ as, strLE a y := (List.pairwise_cons.mp has).1
    have hmem : ∀ x ∈ appendUniq init a, x ∈ init ∨ x = a := fun x hx => mem_appendUniq.mp hx
    refine ih _ ?_ has' ?_
    · rw [appendUniq_eq, hsort]
      by_cases h0 : init = []
      · subst h0; simp
      · by_cases hm : a ∈ init
        · simpa [h0, hm] using hinit
        · simp only [h0, hm, if_false]
          unfold List.Sorted
          rw [List.pairwise_append]
          refine ⟨hinit, List.pairwise_singleton _ _, ?_⟩
          intro x hx y hy
          rw [List.mem_singleton] at hy
          subst hy
          exact hle x hx y (List.mem_cons_self _ _)
    · intro x hx y hy
      rcases hmem x hx with h | h
      · exact hle x h y (List.mem_cons_of_mem _ hy)
      · subst h; exact ha y hy

/-- Items inserted in ascending order give an ascending slice. -/
theorem sorted_foldl_appendUniq (as : List String) (has : as.Sorted strLE) :
    (as.foldl appendUniq []).Sorted strLE :=
  sorted_foldl_appendUniq_aux as [] List.sorted_nil has (fun x hx => by simp at hx)

/-- The addresses of the address-tag pairs of an ascending resource list are ascending. -/
theorem sorted_tag_addresses (rs : List Resource)
    (h : (rs.map Resource.Address).Sorted strLE) :
    ((rs.flatMap (fun r => r.Tags.map (fun kv => (r.Address, kv)))).map Prod.fst).Sorted
      strLE := by
  induction rs with
  | nil => simp
  | cons r rs ih =>
    rw [List.map_cons] at h
    have h1 := (List.pairwise_cons.mp h).1
    have h2 := (List.pairwise_cons.mp h).2
    rw [List.flatMap_cons, List.map_append]
    unfold List.Sorted
    rw [List.pairwise_append]
    refine ⟨?_, ih h2, ?_⟩
    · rw [List.pairwise_map, List.pairwise_map]
      exact List.pairwise_of_forall (fun _ _ => strLE_refl _)
    · intro x hx y hy
      simp only [List.map_map, List.mem_map, Function.comp] at hx
      obtain ⟨kv, _, rfl⟩ := hx
      simp only [List.mem_map, List.mem_flatMap] at hy
      obtain ⟨e, ⟨r', hr', he⟩, rfl⟩ := hy
      obtain ⟨kv', _, rfl⟩ := he
      exact h1 _ (List.mem_map.mpr ⟨r', hr', rfl⟩)

/-- C10, as stated, fails: for the three resources `web` listed with the addresses
`10.0.0.2`, `10.0.0.0`, `10.0.0.1`, the result holds the host list of `all` and that of
`type_aws_instance` as `10.0.0.0`, `10.0.0.2`, `10.0.0.1`, and that of `env_prod` as
`10.0.0.2`, `10.0.0.0`; none of them is ascending. -/
theorem appendUniq_groups_sorted_counterexample :
    mapGet (gatherResources insertionSortRoutine exampleWeb).1 "all" =
        some (GroupValue.all
          { Hosts := ["10.0.0.0", "10.0.0.2", "10.0.0.1"],
            Vars := [("region", Value.str "eu")] }) ∧
      mapGet (gatherResources insertionSortRoutine exampleWeb).1 "type_aws_instance" =
        some (GroupValue.hosts ["10.0.0.0", "10.0.0.2", "10.0.0.1"]) ∧
      mapGet (gatherResources insertionSortRoutine exampleWeb).1 "env_prod" =
        some (GroupValue.hosts ["10.0.0.2", "10.0.0.0"]) ∧
      ¬ (["10.0.0.0", "10.0.0.2", "10.0.0.1"] : List String).Sorted strLE ∧
      ¬ (["10.0.0.2", "10.0.0.0"] : List String).Sorted strLE := by
  decide

/-- C10, amended: every host list accumulated through `appendUniq` (the host list of the all
group, each type group, each tag group) is in ascending order up to its last element,
whatever the order of the resources; and it is in ascending order as a whole when the
resources are listed in ascending order of Address. -/
theorem appendUniq_groups_sorted_but_last (sort : SortRoutine) (s : state) :
    ((gatherPartitions sort s).all.Hosts.dropLast.Sorted strLE ∧
        (∀ g l, mapGet (gatherPartitions sort s).types g = some l → l.dropLast.Sorted strLE) ∧
        (∀ g l, mapGet (gatherPartitions sort s).tags g = some l → l.dropLast.Sorted strLE)) ∧
      ((s.resources.map Resource.Address).Sorted strLE →
        (gatherPartitions sort s).all.Hosts.Sorted strLE ∧
          (∀ g l, mapGet (gatherPartitions sort s).types g = some l → l.Sorted strLE) ∧
          (∀ g l, mapGet (gatherPartitions sort s).tags g = some l → l.Sorted strLE)) := by
  refine ⟨⟨?_, ?_, ?_⟩, fun h => ⟨?_, ?_, ?_⟩⟩
  · rw [gatherPartitions_hosts]
    exact sorted_dropLast_foldl_appendUniq _
  · intro g l hl
    exact ((group_lookup _ _ _ _ (gatherPartitions_types sort s g)).2 l hl).2.1
  · intro g l hl
    exact ((group_lookup _ _ _ _ (gatherPartitions_tags sort s g)).2 l hl).2.1
  · rw [gatherPartitions_hosts]
    exact sorted_foldl_appendUniq _ h
  · intro g l hl
    rw [gatherPartitions_types] at hl
    split at hl
    · simp at hl
    · simp only [Option.some.injEq] at hl
      subst hl
      exact sorted_foldl_appendUniq _ (h.sublist ((List.filter_sublist _).map _))
  · intro g l hl
    rw [gatherPartitions_tags] at hl
    split at hl
    · simp at hl
    · simp only [Option.some.injEq] at hl
      subst hl
      exact sorted_foldl_appendUniq _
        ((sorted_tag_addresses _ h).sublist ((List.filter_sublist _).map _))

theorem appendUniq_groups_sorted_but_last_witness :
    (exampleRepeated.resources.map Resource.Address).Sorted strLE ∧
      ((gatherPartitions insertionSortRoutine exampleRepeated).all.Hosts.Sorted strLE ∧
        (∀ g l, mapGet (gatherPartitions insertionSortRoutine exampleRepeated).types g = some l →
          l.Sorted strLE) ∧
        (∀ g l, mapGet (gatherPartitions insertionSortRoutine exampleRepeated).tags g = some l →
          l.Sorted strLE)) :=
  ⟨by decide, (appendUniq_groups_sorted_but_last insertionSortRoutine exampleRepeated).2
    (by decide)⟩

/-! ## The uniqueness helper on arbitrary slices -/

/-- C20: for every slice, sorted or not, with or without duplicates, and every item, what
`appendUniq` returns is in ascending order once its last element is removed; so is every
slice obtained from the empty slice by any sequence of insertions. -/
theorem appendUniq_sorted_but_last (strs : List String) (item : String) (items : List String) :
    (appendUniq strs item).dropLast.Sorted strLE ∧
      (items.foldl appendUniq []).dropLast.Sorted strLE :=
  ⟨sorted_dropLast_appendUniq strs item, sorted_dropLast_foldl_appendUniq items⟩

/-- An example of C20: three insertions leave the last element out of order. -/
theorem appendUniq_sorted_but_last_example :
    ["c", "a", "b"].foldl appendUniq [] = ["a", "c", "b"] := by
  decide

/-! ## The orchestrator-specific projection: the loop over the resources -/

theorem ansibleBody_of_not_aws (outputs : List Output) (st : AnsibleLocals) (res : Resource)
    (h : res.resourceType ≠ "aws_instance") : ansibleBody outputs st res = st := by
  simp [ansibleBody, h]

/-- The loop of `gatherAnsibleResources` skips every resource that is not an `aws_instance`. -/
theorem foldl_ansibleBody_filter (outputs : List Output) (rs : List Resource)
    (st : AnsibleLocals) :
    rs.foldl (ansibleBody outputs) st =
      (rs.filter (fun r => r.resourceType = "aws_instance")).foldl (ansibleBody outputs) st := by
  induction rs generalizing st with
  | nil => rfl
  | cons r rs ih =>
    by_cases h : r.resourceType = "aws_instance"
    · simp only [List.filter_cons, h, decide_True, if_true, List.foldl_cons]
      exact ih _
    · simp only [List.filter_cons, h, decide_False, List.foldl_cons,
        ansibleBody_of_not_aws outputs st r h]
      exact ih _

theorem foldl_ansibleBody_children (outputs : List Output) (rs : List Resource)
    (st : AnsibleLocals) :
    (rs.foldl (ansibleBody outputs) st).all.Children =
      ((rs.filter (fun r => r.resourceType = "aws_instance")).map ansibleGroupName).foldl
        appendUniq st.all.Children := by
  induction rs generalizing st with
  | nil => rfl
  | cons r rs ih =>
    rw [List.foldl_cons, ih]
    by_cases h : r.resourceType = "aws_instance"
    · simp [List.filter_cons, h, ansibleBody]
    · simp [List.filter_cons, h, ansibleBody]

theorem foldl_ansibleBody_group (outputs : List Output) (rs : List Resource)
    (st : AnsibleLocals) :
    (rs.foldl (ansibleBody outputs) st).ansible_group.Group =
      (rs.filter (fun r => r.resourceType = "aws_instance")).foldl
        (fun m r => mapSet m (ansibleGroupName r)
          ((fun l (x : Resource) => l ++ [ansibleHostName x]) (mapGetD m (ansibleGroupName r)) r))
        st.ansible_group.Group := by
  induction rs generalizing st with
  | nil => rfl
  | cons r rs ih =>
    rw [List.foldl_cons, ih]
    by_cases h : r.resourceType = "aws_instance"
    · simp [List.filter_cons, h, ansibleBody]
    · simp [List.filter_cons, h, ansibleBody]

theorem foldl_ansibleBody_hostVars (outputs : List Output) (rs : List Resource)
    (st : AnsibleLocals) (hout : outputs ≠ []) :
    (rs.foldl (ansibleBody outputs) st).meta.HostVars =
      rs.foldl
        (fun m r =>
          if r.resourceType = "aws_instance" then
            mapSet m (ansibleHostName r) (hostvarsLoop outputs r)
          else m)
        st.meta.HostVars := by
  have hlen : outputs.length > 0 := List.length_pos.mpr hout
  induction rs generalizing st with
  | nil => rfl
  | cons r rs ih =>
    rw [List.foldl_cons, ih, List.foldl_cons]
    by_cases h : r.resourceType = "aws_instance"
    · simp [h, ansibleBody, hlen]
    · simp [h, ansibleBody]

/-- A loop of plain assignments `m[key] = value`, over the entries of a map with distinct
keys: the assigned value where that map has the key, the earlier value elsewhere. -/
theorem mapGet_foldl_assign {V W : Type} (f : V → W) (part : GoMap V) (m : GoMap W)
    (k : String) (hnd : (mapKeys part).Nodup) :
    mapGet (part.foldl (fun m kv => mapSet m kv.1 (f kv.2)) m) k =
      match mapGet part k with
      | some v => some (f v)
      | none => mapGet m k := by
  induction part generalizing m with
  | nil => simp [mapGet]
  | cons e part ih =>
    obtain ⟨k₀, v₀⟩ := e
    simp only [mapKeys, List.map_cons, List.nodup_cons] at hnd
    rw [List.foldl_cons, ih _ hnd.2]
    by_cases hk : k₀ = k
    · subst hk
      have hnone : mapGet part k₀ = none := (mapGet_eq_none_iff _ _).mpr hnd.1
      simp [hnone, mapGet, mapGet_mapSet]
    · simp only [mapGet, hk, if_false, mapGet_mapSet]

/-- The map `ansible_group.Group` after the loop: under each group name, the host names of
the `aws_instance` resources of that group, in list order. -/
theorem gatherAnsibleLocals_group (s : state) (g : String) :
    mapGet (gatherAnsibleLocals s).ansible_group.Group g =
      if (s.resources.filter
          (fun r => r.resourceType = "aws_instance" ∧ ansibleGroupName r = g)).isEmpty then none
      else some ((s.resources.filter
          (fun r => r.resourceType = "aws_instance" ∧ ansibleGroupName r = g)).map
            ansibleHostName) := by
  unfold gatherAnsibleLocals
  rw [foldl_ansibleBody_group]
  refine (mapGet_foldl_update (fun r : Resource => ansibleGroupName r)
    (fun l (x : Resource) => l ++ [ansibleHostName x]) _ [] g).trans ?_
  rw [foldl_concat_map, List.filter_filter]
  have hfun : (fun a : Resource =>
      (decide (ansibleGroupName a = g) && decide (a.resourceType = "aws_instance"))) =
      (fun r => decide (r.resourceType = "aws_instance" ∧ ansibleGroupName r = g)) := by
    funext a
    simp [Bool.and_comm]
  rw [hfun]
  simp [mapGetD, mapGet]

theorem nodup_ansible_group (s : state) :
    (mapKeys (gatherAnsibleLocals s).ansible_group.Group).Nodup := by
  unfold gatherAnsibleLocals
  rw [foldl_ansibleBody_group]
  exact nodup_mapKeys_foldl _ (fun m e h => nodup_mapKeys_mapSet _ _ _ h) _ _ List.nodup_nil

/-- The result of `gatherAnsibleResources` at a name: the hosts of the group with that name,
else the children structure for `all` and the host variables for `_meta`. -/
theorem mapGet_gatherAnsibleResources (s : state) (k : String) :
    mapGet (gatherAnsibleResources s) k =
      match mapGet (gatherAnsibleLocals s).ansible_group.Group k with
      | some v => some (AnsibleValue.group [("hosts", v)])
      | none =>
        if k = "_meta" then some (AnsibleValue.hostVars (gatherAnsibleLocals s).meta)
        else if k = "all" then some (AnsibleValue.children (gatherAnsibleLocals s).all)
        else none := by
  unfold gatherAnsibleResources
  simp only []
  rw [mapGet_foldl_assign (fun v => AnsibleValue.group (mapSet [] "hosts" v)) _ _ _
    (nodup_ansible_group s), mapGet_mapSet, mapGet_mapSet]
  cases mapGet (gatherAnsibleLocals s).ansible_group.Group k with
  | none => simp only [mapGet, eq_comm]
  | some v => rfl

/-! ## The orchestrator-specific projection: groups and children -/

/-- C11: `gatherAnsibleResources` returns the same result on a state and on that state with
every resource whose type is not `aws_instance` removed. -/
theorem gatherAnsibleResources_filter (s : state) :
    gatherAnsibleResources s =
      gatherAnsibleResources
        { resources := s.resources.filter (fun r => r.resourceType = "aws_instance"),
          outputs := s.outputs } := by
  have h : gatherAnsibleLocals s =
      gatherAnsibleLocals
        { resources := s.resources.filter (fun r => r.resourceType = "aws_instance"),
          outputs := s.outputs } := by
    unfold gatherAnsibleLocals
    exact foldl_ansibleBody_filter _ _ _
  unfold gatherAnsibleResources
  rw [h]

/-- An example of C11: the database of the example state does not change the result. -/
theorem gatherAnsibleResources_filter_example :
    gatherAnsibleResources exampleAnsible =
      gatherAnsibleResources
        { resources := exampleAnsible.resources.eraseIdx 1,
          outputs := exampleAnsible.outputs } := by
  decide

/-- C12: for a value `g` of the attribute `tags.ansible_group` among the `aws_instance`
resources, the result maps `g` to a structure whose field `hosts` lists the host names
`baseName.availability_zone.aws` of exactly the `aws_instance` resources whose group is `g`,
in resource order, one entry per resource, repeated names kept. -/
theorem ansible_group_hosts (s : state) (g : String)
    (hg : ∃ r ∈ s.resources, r.resourceType = "aws_instance" ∧
      (mapGet r.Attributes "tags.ansible_group").getD "" = g) :
    mapGet (gatherAnsibleResources s) g =
        some (AnsibleValue.group [("hosts",
          (s.resources.filter (fun r => r.resourceType = "aws_instance" ∧
            (mapGet r.Attributes "tags.ansible_group").getD "" = g)).map
              (fun r => r.baseName ++ "." ++
                (mapGet r.Attributes "availability_zone").getD "" ++ ".aws"))]) ∧
      ((s.resources.filter (fun r => r.resourceType = "aws_instance" ∧
          (mapGet r.Attributes "tags.ansible_group").getD "" = g)).map
            (fun r => r.baseName ++ "." ++
              (mapGet r.Attributes "availability_zone").getD "" ++ ".aws")).length =
        s.resources.countP (fun r => r.resourceType = "aws_instance" ∧
          (mapGet r.Attributes "tags.ansible_group").getD "" = g) := by
  constructor
  · rw [mapGet_gatherAnsibleResources, gatherAnsibleLocals_group]
    obtain ⟨r, hr, haws, hgr⟩ := hg
    have hmem : r ∈ s.resources.filter
        (fun r => decide (r.resourceType = "aws_instance" ∧ ansibleGroupName r = g)) :=
      List.mem_filter.mpr ⟨hr, by simpa [ansibleGroupName, attributeOf] using ⟨haws, hgr⟩⟩
    cases hf : s.resources.filter
        (fun r => decide (r.resourceType = "aws_instance" ∧ ansibleGroupName r = g)) with
    | nil => rw [hf] at hmem; simp at hmem
    | cons x xs =>
      simp only [List.isEmpty_cons, Bool.false_eq_true, if_false]
      rw [← hf]
      rfl
  · rw [List.length_map, List.countP_eq_length_filter]

theorem ansible_group_hosts_witness :
    (∃ r ∈ exampleAnsible.resources, r.resourceType = "aws_instance" ∧
        (mapGet r.Attributes "tags.ansible_group").getD "" = "front") ∧
      (mapGet (gatherAnsibleResources exampleAnsible) "front" =
          some (AnsibleValue.group [("hosts",
            (exampleAnsible.resources.filter (fun r => r.resourceType = "aws_instance" ∧
              (mapGet r.Attributes "tags.ansible_group").getD "" = "front")).map
                (fun r => r.baseName ++ "." ++
                  (mapGet r.Attributes "availability_zone").getD "" ++ ".aws"))]) ∧
        ((exampleAnsible.resources.filter (fun r => r.resourceType = "aws_instance" ∧
            (mapGet r.Attributes "tags.ansible_group").getD "" = "front")).map
              (fun r => r.baseName ++ "." ++
                (mapGet r.Attributes "availability_zone").getD "" ++ ".aws")).length =
          exampleAnsible.resources.countP (fun r => r.resourceType = "aws_instance" ∧
            (mapGet r.Attributes "tags.ansible_group").getD "" = "front")) :=
  ⟨by decide, ansible_group_hosts exampleAnsible "front" (by decide)⟩

/-- The example of C12: the two instances `web` of the group `front` give the same host name
twice. -/
theorem ansible_group_hosts_example :
    mapGet (gatherAnsibleResources exampleAnsible) "front" =
      some (AnsibleValue.group [("hosts", ["web.eu-west-1a.aws", "web.eu-west-1a.aws"])]) := by
  decide

/-- C13, as stated, fails: when an instance has the group `all`, the result holds under
`all` the hosts of that group and not the children structure. -/
theorem ansible_all_counterexample :
    mapGet (gatherAnsibleResources exampleAnsibleAll) "all" =
        some (AnsibleValue.group [("hosts", ["web.eu-west-1a.aws"])]) ∧
      mapGet (gatherAnsibleResources exampleAnsibleAll) "all" ≠
        some (AnsibleValue.children (gatherAnsibleLocals exampleAnsibleAll).all) := by
  decide

/-- C13, amended: the children structure that `gatherAnsibleResources` builds lists every
value of `tags.ansible_group` among the `aws_instance` resources exactly once and nothing
else; the result holds it under `all` when no `aws_instance` resource has the group `all`. -/
theorem ansible_children (s : state) :
    (∀ r ∈ s.resources, r.resourceType = "aws_instance" →
        (gatherAnsibleLocals s).all.Children.count
          ((mapGet r.Attributes "tags.ansible_group").getD "") = 1) ∧
      (∀ g ∈ (gatherAnsibleLocals s).all.Children,
        ∃ r ∈ s.resources, r.resourceType = "aws_instance" ∧
          (mapGet r.Attributes "tags.ansible_group").getD "" = g) ∧
      ((¬ ∃ r ∈ s.resources, r.resourceType = "aws_instance" ∧
          (mapGet r.Attributes "tags.ansible_group").getD "" = "all") →
        mapGet (gatherAnsibleResources s) "all" =
          some (AnsibleValue.children (gatherAnsibleLocals s).all)) := by
  have hch : (gatherAnsibleLocals s).all.Children =
      ((s.resources.filter (fun r => r.resourceType = "aws_instance")).map
        ansibleGroupName).foldl appendUniq [] := by
    unfold gatherAnsibleLocals
    rw [foldl_ansibleBody_children]
  have hnd := nodup_foldl_appendUniq
    ((s.resources.filter (fun r => r.resourceType = "aws_instance")).map ansibleGroupName) []
    List.nodup_nil
  refine ⟨?_, ?_, ?_⟩
  · intro r hr haws
    rw [hch]
    refine List.count_eq_one_of_mem hnd ?_
    rw [mem_foldl_appendUniq]
    refine Or.inr (List.mem_map.mpr ⟨r, List.mem_filter.mpr ⟨hr, by simpa using haws⟩, rfl⟩)
  · intro g hgm
    rw [hch, mem_foldl_appendUniq] at hgm
    rcases hgm with h | h
    · simp at h
    · obtain ⟨r, hr, rfl⟩ := List.mem_map.mp h
      obtain ⟨hr1, hr2⟩ := List.mem_filter.mp hr
      exact ⟨r, hr1, by simpa using hr2, rfl⟩
  · intro hno
    rw [mapGet_gatherAnsibleResources, gatherAnsibleLocals_group]
    have hnil : s.resources.filter
        (fun r => decide (r.resourceType = "aws_instance" ∧ ansibleGroupName r = "all")) = [] := by
      rw [List.filter_eq_nil_iff]
      intro r hr hp
      exact hno ⟨r, hr, by simpa [ansibleGroupName, attributeOf] using hp⟩
    rw [hnil]
    simp

theorem ansible_children_witness :
    (¬ ∃ r ∈ exampleAnsible.resources, r.resourceType = "aws_instance" ∧
        (mapGet r.Attributes "tags.ansible_group").getD "" = "all") ∧
      mapGet (gatherAnsibleResources exampleAnsible) "all" =
        some (AnsibleValue.children (gatherAnsibleLocals exampleAnsible).all) :=
  ⟨by decide, (ansible_children exampleAnsible).2.2 (by decide)⟩

/-- The example of C13: the children of the example state are its two groups of instances. -/
theorem ansible_children_example :
    mapGet (gatherAnsibleResources exampleAnsible) "all" =
      some (AnsibleValue.children { Children := ["front", "back"] }) := by
  decide

/-! ## The host variables -/

/-- A loop of conditional assignments `if p(e) { m[key(e)] = val(e) }`: the entry of `k` is
the value of the last element that passes the test and has the key `k`. -/
theorem mapGet_foldl_cond_assign {α V : Type} (p : α → Prop) [DecidablePred p]
    (key : α → String) (val : α → V) (es : List α) (m₀ : GoMap V) (k : String) :
    mapGet (es.foldl (fun m e => if p e then mapSet m (key e) (val e) else m) m₀) k =
      match (es.filter (fun e => decide (p e ∧ key e = k))).getLast? with
      | some e => some (val e)
      | none => mapGet m₀ k := by
  induction es generalizing m₀ with
  | nil => rfl
  | cons e es ih =>
    rw [List.foldl_cons, ih]
    by_cases hc : p e ∧ key e = k
    · have hd : decide (p e ∧ key e = k) = true := by simpa using hc
      rw [List.filter_cons, if_pos hd]
      cases hf : es.filter (fun e => decide (p e ∧ key e = k)) with
      | nil => simp [hc.1, hc.2, mapGet_mapSet]
      | cons x xs =>
        rw [List.getLast?_cons_cons]
        have hsome : ((x :: xs).getLast?).isSome := by
          rw [List.getLast?_isSome]; simp
        cases hl : (x :: xs).getLast? with
        | none => rw [hl] at hsome; simp at hsome
        | some y => rfl
    · have hd : ¬ decide (p e ∧ key e = k) = true := by simpa using hc
      rw [List.filter_cons, if_neg hd]
      cases hl : (es.filter (fun e => decide (p e ∧ key e = k))).getLast? with
      | some x => rfl
      | none =>
        by_cases hp : p e
        · have hk : ¬ key e = k := fun h => hc ⟨hp, h⟩
          simp [hp, mapGet_mapSet, hk]
        · simp [hp]

theorem removeFirstChars_of_not_contains (old : List Char) :
    ∀ l : List Char, containsChars old l = false → removeFirstChars old l = l := by
  intro l
  induction l with
  | nil => intro _; rfl
  | cons c cs ih =>
    intro h
    simp only [containsChars, Bool.or_eq_false_iff] at h
    simp only [removeFirstChars, h.1, Bool.false_eq_true, if_false, ih h.2]

/-- The model of `strings.Replace(s, old, "", 1)` removes the leftmost occurrence of `old`:
on `pre ++ old ++ rest`, where `old` does not occur before the end of `pre ++ old`, it
returns `pre ++ rest`. -/
theorem removeFirstChars_append (old rest : List Char) :
    ∀ pre : List Char, containsChars old (pre ++ old.dropLast) = false →
      removeFirstChars old (pre ++ old ++ rest) = pre ++ rest := by
  intro pre
  induction pre with
  | nil =>
    intro _
    cases old with
    | nil => cases rest <;> simp [removeFirstChars]
    | cons o os =>
      have hp : (o :: os).isPrefixOf (o :: os ++ rest) = true :=
        List.isPrefixOf_iff_prefix.mpr (List.prefix_append _ _)
      simp only [List.nil_append, List.cons_append] at hp ⊢
      simp only [removeFirstChars, hp, if_true]
      rw [← List.cons_append, List.drop_left']
      rfl
  | cons c pre ih =>
    intro h
    rw [List.cons_append, containsChars, Bool.or_eq_false_iff] at h
    have hnot : old.isPrefixOf (c :: (pre ++ old ++ rest)) = false := by
      by_contra hcon
      have hcon' : old.isPrefixOf (c :: (pre ++ old ++ rest)) = true := by simpa using hcon
      have h1 : old <+: c :: (pre ++ old ++ rest) := List.isPrefixOf_iff_prefix.mp hcon'
      have hold : old ≠ [] := by
        intro he
        subst he
        simp at h
      have h2 : c :: (pre ++ old.dropLast) <+: c :: (pre ++ old ++ rest) := by
        have : c :: (pre ++ old ++ rest) =
            (c :: (pre ++ old.dropLast)) ++ ([old.getLast hold] ++ rest) := by
          conv_lhs => rw [← List.dropLast_append_getLast hold]
          simp
        rw [this]
        exact List.prefix_append _ _
      have hlen : old.length ≤ (c :: (pre ++ old.dropLast)).length := by
        have := List.length_pos.mpr hold
        simp only [List.length_cons, List.length_append, List.length_dropLast]
        omega
      have h3 := List.prefix_of_prefix_length_le h1 h2 hlen
      have h4 := List.isPrefixOf_iff_prefix.mpr h3
      rw [h.1] at h4
      exact Bool.false_ne_true h4
    rw [List.cons_append, List.cons_append, removeFirstChars, if_neg (by rw [hnot]; exact Bool.false_ne_true), ih h.2,
      List.cons_append]

theorem stringsRemoveFirst_append (pre old rest : String)
    (h : stringsContains (pre ++ String.mk old.toList.dropLast) old = false) :
    stringsRemoveFirst (pre ++ old ++ rest) old = pre ++ rest := by
  unfold stringsRemoveFirst
  unfold stringsContains at h
  apply String.ext
  simp only [String.toList, String.data_append] at h ⊢
  exact removeFirstChars_append _ _ _ h

theorem stringsRemoveFirst_of_not_contains (s old : String)
    (h : stringsContains s old = false) : stringsRemoveFirst s old = s := by
  unfold stringsRemoveFirst
  unfold stringsContains at h
  rw [removeFirstChars_of_not_contains _ _ h]
  exact String.ext rfl

/-- The map `hostvars` of a resource: under each name, the value of the last output that the
resource matches and that gets this name. -/
theorem mapGet_hostvarsLoop (outputs : List Output) (res : Resource) (n : String) :
    mapGet (hostvarsLoop outputs res) n =
      ((outputs.filter (fun o => decide (outputMatches res o = true ∧ hostvarName res o = n))
        ).getLast?).map Output.value := by
  unfold hostvarsLoop
  refine (mapGet_foldl_cond_assign (fun o : Output => outputMatches res o = true)
    (fun o => hostvarName res o) Output.value outputs [] n).trans ?_
  cases (outputs.filter
    (fun o => decide (outputMatches res o = true ∧ hostvarName res o = n))).getLast? <;> rfl

/-- The map `meta.HostVars` after the loop, in a state with outputs: under each host name, the
`hostvars` of the last `aws_instance` resource with that host name. -/
theorem gatherAnsibleLocals_hostVars (s : state) (hout : s.outputs ≠ []) (h : String) :
    mapGet (gatherAnsibleLocals s).meta.HostVars h =
      ((s.resources.filter
        (fun r => decide (r.resourceType = "aws_instance" ∧ ansibleHostName r = h))
        ).getLast?).map (hostvarsLoop s.outputs) := by
  unfold gatherAnsibleLocals
  rw [foldl_ansibleBody_hostVars _ _ _ hout]
  refine (mapGet_foldl_cond_assign (fun r : Resource => r.resourceType = "aws_instance")
    ansibleHostName (hostvarsLoop s.outputs) s.resources [] h).trans ?_
  cases (s.resources.filter
    (fun r => decide (r.resourceType = "aws_instance" ∧ ansibleHostName r = h))).getLast? <;> rfl

theorem hostvarsLoop_congr (outputs : List Output) (r r' : Resource)
    (ht : r'.resourceType = r.resourceType) (hb : r'.baseName = r.baseName) :
    hostvarsLoop outputs r' = hostvarsLoop outputs r := by
  unfold hostvarsLoop outputMatches hostvarName
  rw [ht, hb]

/-- C14, as stated, fails: the key name `aws_instance_webserver_ip` contains
`aws_instance_web`, so the output is attached to the host of the resource `web`, and it is
stored there under its whole key name, nothing stripped. -/
theorem hostvars_counterexample :
    stringsContains "aws_instance_webserver_ip" ("aws_instance" ++ "_" ++ "web") = true ∧
      mapGet (gatherAnsibleLocals exampleAnsible).meta.HostVars "web.eu-west-1a.aws" =
        some [("port", Value.num 80), ("aws_instance_webserver_ip", Value.str "10.1.1.1")] := by
  decide

/-- C14, amended: in a state with outputs, for an `aws_instance` resource `r`, the `hostvars`
stored under the host name of `r` are those of the last `aws_instance` resource with that
host name, which are those of `r` when these resources all have the base name of `r`; the
`hostvars` of `r` hold exactly the outputs whose key name contains `resourceType_baseName`,
each under its key name with the leftmost occurrence of `resourceType_baseName_` removed, a
later output with the same name replacing an earlier one; that name is the rest of the key
name when the key name starts with `resourceType_baseName_`, and the whole key name when
`resourceType_baseName_` does not occur in it. -/
theorem hostvars_contents (s : state) (r : Resource) (hout : s.outputs ≠ [])
    (hr : r ∈ s.resources) (haws : r.resourceType = "aws_instance") :
    (∃ r', (s.resources.filter (fun x => x.resourceType = "aws_instance" ∧
          ansibleHostName x = ansibleHostName r)).getLast? = some r' ∧
        mapGet (gatherAnsibleLocals s).meta.HostVars
            (r.baseName ++ "." ++ (mapGet r.Attributes "availability_zone").getD "" ++ ".aws") =
          some (hostvarsLoop s.outputs r')) ∧
      ((∀ x ∈ s.resources, x.resourceType = "aws_instance" →
          ansibleHostName x = ansibleHostName r → x.baseName = r.baseName) →
        mapGet (gatherAnsibleLocals s).meta.HostVars
            (r.baseName ++ "." ++ (mapGet r.Attributes "availability_zone").getD "" ++ ".aws") =
          some (hostvarsLoop s.outputs r)) ∧
      (∀ n, mapGet (hostvarsLoop s.outputs r) n =
        ((s.outputs.filter (fun o =>
          stringsContains o.keyName (r.resourceType ++ "_" ++ r.baseName) = true ∧
            stringsRemoveFirst o.keyName (r.resourceType ++ "_" ++ r.baseName ++ "_") = n)
          ).getLast?).map Output.value) ∧
      (∀ pre rest,
        stringsContains (pre ++ (r.resourceType ++ "_" ++ r.baseName))
            (r.resourceType ++ "_" ++ r.baseName ++ "_") = false →
          stringsRemoveFirst (pre ++ (r.resourceType ++ "_" ++ r.baseName ++ "_") ++ rest)
            (r.resourceType ++ "_" ++ r.baseName ++ "_") = pre ++ rest) ∧
      (∀ k, stringsContains k (r.resourceType ++ "_" ++ r.baseName ++ "_") = false →
        stringsRemoveFirst k (r.resourceType ++ "_" ++ r.baseName ++ "_") = k) := by
  have hname : r.baseName ++ "." ++ (mapGet r.Attributes "availability_zone").getD "" ++ ".aws" =
      ansibleHostName r := rfl
  have hmem : r ∈ s.resources.filter (fun x => decide (x.resourceType = "aws_instance" ∧
      ansibleHostName x = ansibleHostName r)) :=
    List.mem_filter.mpr ⟨hr, by simpa using haws⟩
  have hlast : ∃ r', (s.resources.filter (fun x => decide (x.resourceType = "aws_instance" ∧
      ansibleHostName x = ansibleHostName r))).getLast? = some r' := by
    cases hl : (s.resources.filter (fun x => decide (x.resourceType = "aws_instance" ∧
        ansibleHostName x = ansibleHostName r))).getLast? with
    | none =>
      rw [List.getLast?_eq_none_iff] at hl
      rw [hl] at hmem
      simp at hmem
    | some r' => exact ⟨r', rfl⟩
  obtain ⟨r', hr'⟩ := hlast
  have hstored : mapGet (gatherAnsibleLocals s).meta.HostVars (ansibleHostName r) =
      some (hostvarsLoop s.outputs r') := by
    rw [gatherAnsibleLocals_hostVars s hout, hr']
    rfl
  refine ⟨⟨r', hr', by rw [hname]; exact hstored⟩, ?_, ?_, ?_, ?_⟩
  · intro hall
    rw [hname, hstored]
    have hr'mem := List.mem_of_getLast?_eq_some hr'
    obtain ⟨h1, h2⟩ := List.mem_filter.mp hr'mem
    simp only [decide_eq_true_eq] at h2
    rw [hostvarsLoop_congr s.outputs r r' (h2.1.trans haws.symm) (hall r' h1 h2.1 h2.2)]
  · intro n
    exact mapGet_hostvarsLoop s.outputs r n
  · intro pre rest h
    refine stringsRemoveFirst_append pre _ rest ?_
    have hdrop : String.mk (r.resourceType ++ "_" ++ r.baseName ++ "_").toList.dropLast =
        r.resourceType ++ "_" ++ r.baseName := by
      apply String.ext
      have : (r.resourceType ++ "_" ++ r.baseName ++ "_").toList =
          (r.resourceType ++ "_" ++ r.baseName).toList ++ ['_'] := by
        simp only [String.toList, String.data_append]
      rw [this, List.dropLast_concat]
      rfl
    rw [hdrop]
    exact h
  · intro k h
    exact stringsRemoveFirst_of_not_contains k _ h

theorem hostvars_contents_witness :
    exampleAnsible.outputs ≠ [] ∧
      (⟨"web", "aws_instance", 0, "10.0.0.1", [],
          [("tags.ansible_group", "front"), ("availability_zone", "eu-west-1a")]⟩ : Resource) ∈
        exampleAnsible.resources ∧
      mapGet (gatherAnsibleLocals exampleAnsible).meta.HostVars "web.eu-west-1a.aws" =
        some (hostvarsLoop exampleAnsible.outputs
          ⟨"web", "aws_instance", 0, "10.0.0.1", [],
            [("tags.ansible_group", "front"), ("availability_zone", "eu-west-1a")]⟩) :=
  ⟨by decide, by decide,
    (hostvars_contents exampleAnsible
      ⟨"web", "aws_instance", 0, "10.0.0.1", [],
        [("tags.ansible_group", "front"), ("availability_zone", "eu-west-1a")]⟩
      (by decide) (by decide) rfl).2.1 (by decide)⟩

/-- The example of C14: the output `aws_instance_web_port` is the variable `port` of the host
of the resource `web`. -/
theorem hostvars_example :
    stringsRemoveFirst "aws_instance_web_port" ("aws_instance" ++ "_" ++ "web" ++ "_") = "port" ∧
      (mapGet (gatherAnsibleLocals exampleAnsible).meta.HostVars "web.eu-west-1a.aws").bind
        (fun hostvars => mapGet hostvars "port") = some (Value.num 80) := by
  decide

/-! ## The commands -/

theorem writeLn_ok (str w : String) (e : Writer) :
    writeLn str ({ written := w, outcomes := [] }, e) =
      ({ written := w ++ (str ++ "\n"), outcomes := [] }, e) := rfl

theorem foldl_writeLn_ok {α : Type} (f : α → String) (items : List α) (w : String)
    (e : Writer) :
    items.foldl (fun io item => writeLn (f item) io) ({ written := w, outcomes := [] }, e) =
      ({ written := w ++ joinLines (items.map f), outcomes := [] }, e) := by
  induction items generalizing w with
  | nil => simp [joinLines]
  | cons x xs ih =>
    rw [List.foldl_cons, writeLn_ok, ih]
    simp [joinLines, String.append_assoc]

theorem joinLines_append (a b : List String) :
    joinLines (a ++ b) = joinLines a ++ joinLines b := by
  induction a with
  | nil => simp [joinLines]
  | cons x xs ih => simp only [List.cons_append, joinLines, List.append_eq, ih, String.append_assoc]

/-- On a standard output that does not fail, one round of the loop of `cmdInventory` appends
the block of the group. -/
theorem inventoryBody_ok (marshal : Value → Except String String) (groups : GoMap GroupValue)
    (w : String) (e : Writer) (name : String) :
    inventoryBody marshal groups ({ written := w, outcomes := [] }, e) name =
      ({ written := w ++
          (match mapGet groups name with
            | some v => specGroupBlock marshal name v
            | none => "\n"),
         outcomes := [] }, e) := by
  unfold inventoryBody
  cases hg : mapGet groups name with
  | none => rfl
  | some v =>
    cases v with
    | hosts grp =>
      simp only []
      rw [writeLn_ok, foldl_writeLn_ok (fun x => x), writeLn_ok]
      simp only [specGroupBlock, joinLines, List.append_eq, joinLines_append, String.append_assoc,
        List.map_id_fun, id_eq, String.append_empty, String.empty_append, List.map_id']
    | all grp =>
      simp only []
      rw [writeLn_ok, foldl_writeLn_ok (fun x => x), writeLn_ok, writeLn_ok,
        foldl_writeLn_ok (fun key => key ++ "=" ++ jsonItem marshal grp.Vars key), writeLn_ok]
      simp only [specGroupBlock, joinLines, List.append_eq, joinLines_append, String.append_assoc,
        List.map_id_fun, id_eq, String.append_empty, String.empty_append, List.map_id']

theorem nodup_mapKeys_gatherResources (sort : SortRoutine) (s : state) :
    (mapKeys (gatherResources sort s).1).Nodup := by
  unfold gatherResources
  simp only []
  refine nodup_mapKeys_mergePartition _ _ _ (nodup_mapKeys_mergePartition _ _ _
    (nodup_mapKeys_mergePartition _ _ _ (nodup_mapKeys_mergePartition _ _ _ ?_)))
  exact nodup_mapKeys_mapSet _ _ _ List.nodup_nil

theorem foldl_inventoryBody_ok (marshal : Value → Except String String)
    (groups : GoMap GroupValue) (names : List String) (w : String) (e : Writer) :
    names.foldl (inventoryBody marshal groups) ({ written := w, outcomes := [] }, e) =
      ({ written := w ++ specInventory marshal groups names, outcomes := [] }, e) := by
  induction names generalizing w with
  | nil => simp [specInventory]
  | cons n ns ih =>
    rw [List.foldl_cons, inventoryBody_ok, ih]
    simp [specInventory, String.append_assoc]

/-- C15: on a standard output that does not fail, `cmdInventory` writes the blocks of the
groups returned by `gatherResources` in ascending order of the group names, each group once,
and the block of a group whose value is a plain host list is the line `[name]`, one line per
host in list order, and an empty line. -/
theorem cmdInventory_written (sort : SortRoutine) (marshal : Value → Except String String)
    (w : String) (stderr : Writer) (s : state) :
    (cmdInventory sort marshal { written := w, outcomes := [] } stderr s).stdout.written =
        w ++ specInventory marshal (gatherResources sort s).1
          (sortStrings (mapKeys (gatherResources sort s).1)) ∧
      (sortStrings (mapKeys (gatherResources sort s).1)).Sorted strLE ∧
      (sortStrings (mapKeys (gatherResources sort s).1)).Perm
        (mapKeys (gatherResources sort s).1) ∧
      (mapKeys (gatherResources sort s).1).Nodup ∧
      (∀ name hosts, specGroupBlock marshal name (GroupValue.hosts hosts) =
        "[" ++ name ++ "]" ++ "\n" ++ joinLines hosts ++ "\n") ∧
      specGroupBlock marshal "web" (GroupValue.hosts ["web.0", "web.1"]) =
        "[web]\nweb.0\nweb.1\n\n" := by
  refine ⟨?_, sortStrings_sorted _, sortStrings_perm _,
    nodup_mapKeys_gatherResources sort s, ?_, rfl⟩
  · unfold cmdInventory
    simp only []
    rw [foldl_inventoryBody_ok]
  · intro name hosts
    simp only [specGroupBlock, joinLines, List.append_eq, joinLines_append, String.append_assoc,
      String.append_empty, String.empty_append]

/-- The example of C15 on a state: the whole text that `cmdInventory` writes for two resources
`web` whose addresses are `web.0` and `web.1`. -/
theorem cmdInventory_example :
    (cmdInventory insertionSortRoutine exampleMarshalValue emptyWriter emptyWriter
        exampleInventory).stdout.written =
      "[all]\nweb.0\nweb.1\n\n[all:vars]\nregion=\"eu\"\n\n[type_t]\nweb.0\nweb.1\n\n" ++
        "[web]\nweb.0\nweb.1\n\n[web.0]\nweb.0\n\n[web.1]\nweb.1\n\n" := by
  decide

/-- The result code of `output` is 0 exactly when the encoding and the write succeed. -/
theorem output_code {α : Type} (marshal : α → Except String String) (stdout stderr : Writer)
    (whatever : α) :
    ((output marshal stdout stderr whatever).code = 0 ↔
        ∃ b, marshal whatever = Except.ok b ∧ (stdout.Write b).2 = none) ∧
      ((output marshal stdout stderr whatever).code = 1 ↔
        ¬ ∃ b, marshal whatever = Except.ok b ∧ (stdout.Write b).2 = none) := by
  unfold output
  cases hm : marshal whatever with
  | error err => simp
  | ok b =>
    simp only []
    cases hw : stdout.Write b with
    | mk w' err =>
      cases err with
      | none => simp [hw]
      | some e => simp [hw]

/-- C16: when no resource has the host name as its Address, `cmdHost` issues the single write
of `{}` to the standard output and returns 1; when some resource has, `cmdHost` is the
rendering by `output` of the attribute map of the first such resource of the list, whose
result code is 0 when the encoding and the write succeed. -/
theorem cmdHost_result (marshal : GoMap String → Except String String) (stdout stderr : Writer)
    (s : state) (hostname : String) :
    ((∀ r ∈ s.resources, r.Address ≠ hostname) →
        cmdHost marshal stdout stderr s hostname =
          { code := 1, stdout := (stdout.Write "\x7b\x7d").1, stderr := stderr,
            diagnostics := [] }) ∧
      (∀ pre r post, s.resources = pre ++ r :: post → (∀ x ∈ pre, x.Address ≠ hostname) →
        r.Address = hostname →
        cmdHost marshal stdout stderr s hostname = output marshal stdout stderr r.Attributes ∧
          (∀ b, marshal r.Attributes = Except.ok b → (stdout.Write b).2 = none →
            (cmdHost marshal stdout stderr s hostname).code = 0 ∧
              (cmdHost marshal stdout stderr s hostname).stdout = (stdout.Write b).1)) ∧
      (stdout.outcomes.head? = none ∨ stdout.outcomes.head? = some none →
        (stdout.Write "\x7b\x7d").1.written = stdout.written ++ "\x7b\x7d") := by
  refine ⟨?_, ?_, ?_⟩
  · intro hno
    unfold cmdHost
    have hfind : s.resources.find? (fun res => decide (hostname = res.Address)) = none := by
      rw [List.find?_eq_none]
      intro r hr
      simpa [eq_comm] using hno r hr
    rw [hfind]
  · intro pre r post hs hpre hr
    have hfind : s.resources.find? (fun res => decide (hostname = res.Address)) = some r := by
      rw [hs, List.find?_append]
      have h1 : pre.find? (fun res => decide (hostname = res.Address)) = none := by
        rw [List.find?_eq_none]
        intro x hx
        simpa [eq_comm] using hpre x hx
      rw [h1, List.find?_cons]
      simp [hr]
    have hcmd : cmdHost marshal stdout stderr s hostname =
        output marshal stdout stderr r.Attributes := by
      unfold cmdHost
      rw [hfind]
    refine ⟨hcmd, ?_⟩
    intro b hb hw
    rw [hcmd]
    unfold output
    rw [hb]
    simp only []
    cases hwr : stdout.Write b with
    | mk w' err =>
      rw [hwr] at hw
      simp only at hw
      subst hw
      exact ⟨rfl, rfl⟩
  · intro h
    unfold Writer.Write
    cases ho : stdout.outcomes with
    | nil => rfl
    | cons o os =>
      rw [ho] at h
      cases o with
      | none => rfl
      | some f => simp at h

theorem cmdHost_result_witness :
    (∀ r ∈ exampleInventory.resources, r.Address ≠ "web.9") ∧
      cmdHost exampleMarshalAttributes emptyWriter emptyWriter exampleInventory "web.9" =
        { code := 1, stdout := (emptyWriter.Write "\x7b\x7d").1, stderr := emptyWriter,
          diagnostics := [] } :=
  ⟨by decide,
    (cmdHost_result exampleMarshalAttributes emptyWriter emptyWriter exampleInventory "web.9").1
      (by decide)⟩

/-- The examples of C16: an unknown host gives `{}` and the code 1, a known host gives its
attribute map and the code 0. -/
theorem cmdHost_example :
    cmdHost exampleMarshalAttributes emptyWriter emptyWriter exampleInventory "web.9" =
        { code := 1, stdout := { written := "\x7b\x7d", outcomes := [] }, stderr := emptyWriter,
          diagnostics := [] } ∧
      cmdHost exampleMarshalAttributes emptyWriter emptyWriter exampleInventory "web.1" =
        { code := 0, stdout := { written := "\x7b\"id\":\"i-1\"\x7d", outcomes := [] },
          stderr := emptyWriter, diagnostics := [] } := by
  decide

/-! ## Write failures -/

/-- The result code of `cmdInventory` is 0 whatever happens to its writes. -/
theorem cmdInventory_code (sort : SortRoutine) (marshal : Value → Except String String)
    (stdout stderr : Writer) (s : state) :
    (cmdInventory sort marshal stdout stderr s).code = 0 := rfl

/-- When the write of `cmdList` to the standard output fails, its result code is 1. -/
theorem cmdList_write_failure (marshal : GoMap AnsibleValue → Except String String)
    (stdout stderr : Writer) (s : state)
    (h : ∀ b, marshal (gatherAnsibleResources s) = Except.ok b → (stdout.Write b).2 ≠ none) :
    (cmdList marshal stdout stderr s).code = 1 := by
  unfold cmdList
  rw [(output_code marshal stdout stderr _).2]
  rintro ⟨b, hb, hw⟩
  exact h b hb hw

/-- When a write of `cmdHost` to the standard output fails, its result code is 1. -/
theorem cmdHost_write_failure (marshal : GoMap String → Except String String)
    (stdout stderr : Writer) (s : state) (hostname : String)
    (h : ∀ p, (stdout.Write p).2 ≠ none) :
    (cmdHost marshal stdout stderr s hostname).code = 1 := by
  unfold cmdHost
  cases s.resources.find? (fun res => decide (hostname = res.Address)) with
  | none => rfl
  | some r =>
    simp only []
    rw [(output_code marshal stdout stderr _).2]
    rintro ⟨b, _, hw⟩
    exact h b hw

/-- C17 at a failing input: the first write of `cmdInventory` to the standard output fails,
`checkErr` reports it on the error stream, and the result code is 0. -/
theorem cmdInventory_write_failure :
    (failingStdout.Write "[all]\n").2 = some "broken pipe" ∧
      (cmdInventory insertionSortRoutine exampleMarshalValue failingStdout emptyWriter
        exampleInventory).code = 0 ∧
      (cmdInventory insertionSortRoutine exampleMarshalValue failingStdout emptyWriter
        exampleInventory).stderr.written = "Error writing inventory: broken pipe\n" ∧
      (checkErr (some "broken pipe") emptyWriter).2 = 1 := by
  decide

/-! ## The diagnostics of the merge -/

theorem mem_iff_mapGet_eq_some {V : Type} (m : GoMap V) (k : String) (v : V)
    (hnd : (mapKeys m).Nodup) : (k, v) ∈ m ↔ mapGet m k = some v := by
  induction m with
  | nil => simp [mapGet]
  | cons e m ih =>
    obtain ⟨k₀, v₀⟩ := e
    simp only [mapKeys, List.map_cons, List.nodup_cons] at hnd
    by_cases hk : k₀ = k
    · subst hk
      simp only [mapGet, if_true, Option.some.injEq, List.mem_cons, Prod.mk.injEq, true_and]
      constructor
      · rintro (h | h)
        · exact h.symm
        · exact absurd (List.mem_map.mpr ⟨(k₀, v), h, rfl⟩) hnd.1
      · intro h
        exact Or.inl h.symm
    · have hne : ¬ k = k₀ := fun e => hk e.symm
      simp only [mapGet, hk, if_false, List.mem_cons, Prod.mk.injEq, hne, false_and, false_or]
      exact ih hnd.2

/-- The log after one merge loop: one diagnostic more for every entry of the partition whose
key the result map already had, with the value it had. -/
theorem mergePartition_snd (label : String) (part : GoMap (List String))
    (acc : GoMap GroupValue × List Diagnostic) (hnd : (mapKeys part).Nodup) :
    (mergePartition label part acc).2 =
      acc.2 ++ part.filterMap (fun kv =>
        (mapGet acc.1 kv.1).map (fun old => Diagnostic.overwrite label kv.1 old kv.2)) := by
  unfold mergePartition
  induction part generalizing acc with
  | nil => simp
  | cons e part ih =>
    obtain ⟨k₀, v₀⟩ := e
    simp only [mapKeys, List.map_cons, List.nodup_cons] at hnd
    rw [List.foldl_cons, ih _ hnd.2]
    have hcongr : part.filterMap (fun kv =>
        (mapGet (mapSet acc.1 k₀ (GroupValue.hosts v₀)) kv.1).map
          (fun old => Diagnostic.overwrite label kv.1 old kv.2)) =
        part.filterMap (fun kv =>
          (mapGet acc.1 kv.1).map (fun old => Diagnostic.overwrite label kv.1 old kv.2)) := by
      apply List.filterMap_congr
      intro kv hkv
      have hne : ¬ k₀ = kv.1 := fun e => hnd.1 (e ▸ List.mem_map.mpr ⟨kv, hkv, rfl⟩)
      rw [mapGet_mapSet, if_neg hne]
    simp only [hcongr, List.filterMap_cons]
    cases hg : mapGet acc.1 k₀ with
    | none => simp
    | some old => simp

theorem mergePartition_fst_log (label : String) (part : GoMap (List String))
    (m : GoMap GroupValue) (log : List Diagnostic) :
    (mergePartition label part (m, log)).1 = (mergePartition label part (m, [])).1 := by
  rw [mergePartition_fst, mergePartition_fst]

theorem foldl_resourceBody_stderr (rs : List Resource) (st : Partitions)
    (h : ∀ d ∈ st.stderr, d.isOverwrite = false) :
    ∀ d ∈ (rs.foldl resourceBody st).stderr, d.isOverwrite = false := by
  induction rs generalizing st with
  | nil => exact h
  | cons r rs ih =>
    rw [List.foldl_cons]
    apply ih
    intro d hd
    simp only [resourceBody] at hd
    cases hg : mapGet st.individual (invdGroupName r) with
    | none =>
      rw [hg] at hd
      exact h d hd
    | some old =>
      rw [hg] at hd
      rcases List.mem_append.mp hd with hd | hd
      · exact h d hd
      · rw [List.mem_singleton] at hd
        subst hd
        rfl

theorem gatherPartitions_stderr (sort : SortRoutine) (s : state) :
    ∀ d ∈ (gatherPartitions sort s).stderr, d.isOverwrite = false := by
  show ∀ d ∈ (s.resources.foldl resourceBody _).stderr, d.isOverwrite = false
  exact foldl_resourceBody_stderr _ _ (fun d hd => by simp at hd)

theorem length_filterMap_eq {α β : Type} (f : α → Option β) (l : List α) :
    (l.filterMap f).length = (l.filter (fun a => (f a).isSome)).length := by
  induction l with
  | nil => rfl
  | cons a l ih =>
    rw [List.filterMap_cons, List.filter_cons]
    cases hf : f a with
    | none => simpa using ih
    | some b => simpa using ih

/-- The log of `gatherResources`: what the resource loop wrote, then the diagnostics of the
four merge loops. -/
theorem gatherResources_log (sort : SortRoutine) (s : state) :
    (gatherResources sort s).2 =
      (gatherPartitions sort s).stderr ++
        (gatherPartitions sort s).individual.filterMap (fun kv =>
          (mapGet (afterAll (gatherPartitions sort s)) kv.1).map
            (fun old => Diagnostic.overwrite "individual" kv.1 old kv.2)) ++
        (gatherPartitions sort s).ordered.filterMap (fun kv =>
          (mapGet (afterIndividual (gatherPartitions sort s)) kv.1).map
            (fun old => Diagnostic.overwrite "ordered" kv.1 old kv.2)) ++
        (gatherPartitions sort s).types.filterMap (fun kv =>
          (mapGet (afterOrdered (gatherPartitions sort s)) kv.1).map
            (fun old => Diagnostic.overwrite "types" kv.1 old kv.2)) ++
        (gatherPartitions sort s).tags.filterMap (fun kv =>
          (mapGet (afterTypes (gatherPartitions sort s)) kv.1).map
            (fun old => Diagnostic.overwrite "tags" kv.1 old kv.2)) := by
  unfold gatherResources
  simp only []
  rw [mergePartition_snd _ _ _ (nodup_tags sort s), mergePartition_snd _ _ _ (nodup_types sort s),
    mergePartition_snd _ _ _ (nodup_ordered sort s),
    mergePartition_snd _ _ _ (nodup_individual sort s)]
  rw [mergePartition_fst_log "types", mergePartition_fst_log "ordered",
    mergePartition_fst_log "individual"]
  rfl

theorem mem_filterMap_overwrite (lab : String) (part : GoMap (List String))
    (m : GoMap GroupValue) (hnd : (mapKeys part).Nodup) (label k : String) (old : GroupValue)
    (new : List String) :
    Diagnostic.overwrite label k old new ∈ part.filterMap (fun kv =>
        (mapGet m kv.1).map (fun old => Diagnostic.overwrite lab kv.1 old kv.2)) ↔
      label = lab ∧ mapGet part k = some new ∧ mapGet m k = some old := by
  rw [List.mem_filterMap]
  constructor
  · rintro ⟨⟨k', v'⟩, hmem, hf⟩
    cases hg : mapGet m k' with
    | none => simp [hg] at hf
    | some old' =>
      simp only [hg, Option.map_some', Option.some.injEq, Diagnostic.overwrite.injEq] at hf
      obtain ⟨h1, h2, h3, h4⟩ := hf
      subst h1 h2 h3 h4
      exact ⟨rfl, (mem_iff_mapGet_eq_some part _ _ hnd).mp hmem, hg⟩
  · rintro ⟨h1, h2, h3⟩
    subst h1
    exact ⟨(k, new), (mem_iff_mapGet_eq_some part _ _ hnd).mpr h2, by simp [h3]⟩

theorem not_mem_of_isOverwrite (log : List Diagnostic)
    (h : ∀ d ∈ log, d.isOverwrite = false) (label k : String) (old : GroupValue)
    (new : List String) : Diagnostic.overwrite label k old new ∉ log := by
  intro hmem
  have := h _ hmem
  simp [Diagnostic.isOverwrite] at this

theorem filter_isOverwrite_filterMap (lab : String) (part : GoMap (List String))
    (m : GoMap GroupValue) :
    ((part.filterMap (fun kv =>
        (mapGet m kv.1).map (fun old => Diagnostic.overwrite lab kv.1 old kv.2))).filter
        Diagnostic.isOverwrite).length =
      (part.filter (fun kv => decide (kv.1 ∈ mapKeys m))).length := by
  have hall : ∀ d ∈ part.filterMap (fun kv =>
      (mapGet m kv.1).map (fun old => Diagnostic.overwrite lab kv.1 old kv.2)),
      Diagnostic.isOverwrite d = true := by
    intro d hd
    obtain ⟨kv, _, hf⟩ := List.mem_filterMap.mp hd
    cases hg : mapGet m kv.1 with
    | none => simp [hg] at hf
    | some old =>
      simp only [hg, Option.map_some', Option.some.injEq] at hf
      subst hf
      rfl
  rw [List.filter_eq_self.mpr hall, length_filterMap_eq]
  congr 1
  apply List.filter_congr
  intro kv _
  have := mapGet_isSome_iff m kv.1
  cases hg : mapGet m kv.1 with
  | none =>
    rw [hg] at this
    simp only [Option.map_none', Option.isSome_none]
    symm
    simpa using this
  | some old =>
    rw [hg] at this
    simp only [Option.map_some', Option.isSome_some]
    symm
    simpa using this

/-- C18: with the error channel as the returned log, a merge loop records a diagnostic for a
group name exactly when the partition has the name and the result map, as the earlier steps
left it, already has it, with the old and the new value; so the number of merge diagnostics
is the number of overwrites; and the mapping is returned whatever the collisions. -/
theorem merge_diagnostics (sort : SortRoutine) (s : state) :
    (∀ label k old new,
        Diagnostic.overwrite label k old new ∈ (gatherResources sort s).2 ↔
          (label = "individual" ∧ mapGet (gatherPartitions sort s).individual k = some new ∧
              mapGet (afterAll (gatherPartitions sort s)) k = some old) ∨
            (label = "ordered" ∧ mapGet (gatherPartitions sort s).ordered k = some new ∧
              mapGet (afterIndividual (gatherPartitions sort s)) k = some old) ∨
            (label = "types" ∧ mapGet (gatherPartitions sort s).types k = some new ∧
              mapGet (afterOrdered (gatherPartitions sort s)) k = some old) ∨
            (label = "tags" ∧ mapGet (gatherPartitions sort s).tags k = some new ∧
              mapGet (afterTypes (gatherPartitions sort s)) k = some old)) ∧
      ((gatherResources sort s).2.filter Diagnostic.isOverwrite).length =
        ((gatherPartitions sort s).individual.filter
            (fun kv => decide (kv.1 ∈ mapKeys (afterAll (gatherPartitions sort s))))).length +
          ((gatherPartitions sort s).ordered.filter
            (fun kv => decide (kv.1 ∈ mapKeys (afterIndividual (gatherPartitions sort s))))).length +
          ((gatherPartitions sort s).types.filter
            (fun kv => decide (kv.1 ∈ mapKeys (afterOrdered (gatherPartitions sort s))))).length +
          ((gatherPartitions sort s).tags.filter
            (fun kv => decide (kv.1 ∈ mapKeys (afterTypes (gatherPartitions sort s))))).length ∧
      (gatherResources sort s).1 =
        (mergePartition "tags" (gatherPartitions sort s).tags
          (afterTypes (gatherPartitions sort s), [])).1 := by
  refine ⟨?_, ?_, ?_⟩
  · intro label k old new
    rw [gatherResources_log]
    simp only [List.mem_append, mem_filterMap_overwrite _ _ _ (nodup_individual sort s),
      mem_filterMap_overwrite _ _ _ (nodup_ordered sort s),
      mem_filterMap_overwrite _ _ _ (nodup_types sort s),
      mem_filterMap_overwrite _ _ _ (nodup_tags sort s)]
    have hno := not_mem_of_isOverwrite _ (gatherPartitions_stderr sort s) label k old new
    simp only [hno, false_or, or_assoc]
  · rw [gatherResources_log]
    simp only [List.filter_append, List.length_append, filter_isOverwrite_filterMap]
    have h0 : ((gatherPartitions sort s).stderr.filter Diagnostic.isOverwrite) = [] := by
      rw [List.filter_eq_nil_iff]
      intro d hd
      rw [gatherPartitions_stderr sort s d hd]
      exact Bool.false_ne_true
    rw [h0]
    simp
  · unfold gatherResources
    simp only []
    rw [mergePartition_fst_log "tags", mergePartition_fst_log "types",
      mergePartition_fst_log "ordered", mergePartition_fst_log "individual"]
    rfl

/-- The example of C18: the tag groups `web`, `type_aws_instance` and `all` overwrite the
ordered group, the type group and the all structure, and each overwrite is recorded. -/
theorem merge_diagnostics_example :
    (gatherResources insertionSortRoutine exampleCollision).2 =
      [ Diagnostic.overwrite "tags" "web" (GroupValue.hosts ["10.0.0.1"])
          ["10.0.0.1", "10.0.0.2"],
        Diagnostic.overwrite "tags" "type_aws_instance" (GroupValue.hosts ["10.0.0.1"])
          ["10.0.0.1"],
        Diagnostic.overwrite "tags" "all"
          (GroupValue.all { Hosts := ["10.0.0.1", "10.0.0.2"], Vars := [] }) ["10.0.0.1"] ] := by
  decide

/-! ## Resources with equal counters -/

/-- C19, as stated, fails: with the sort routine of Go 1.7 to Go 1.18 on seven resources
`web`, the first two of which have the counter 1, the Address `a1` of the second comes before
the Address `a0` of the first in the ordered group. -/
theorem ordered_stable_counterexample :
    List.Sublist
        [(⟨"web", "t", 1, "a0", [], []⟩ : Resource), ⟨"web", "t", 1, "a1", [], []⟩]
        exampleTies.resources ∧
      mapGet (gatherPartitions shellSortRoutine exampleTies).ordered "web" =
        some ["a6", "a1", "a0", "a2", "a3", "a4", "a5"] ∧
      ¬ List.Sublist ["a0", "a1"] ["a6", "a1", "a0", "a2", "a3", "a4", "a5"] := by
  decide

/-- C19, amended: when the resources of a base name have pairwise distinct counters, its
ordered group is the list of their Addresses by ascending counter, whatever the sort routine;
and for two resources of the list with the same base name and counter, the earlier before the
later, the ordered group computed with a stable sort routine (the insertion sort) holds their
Addresses in that order. With equal counters `sort.Sort`, which is not stable, promises no
order. -/
theorem ordered_ties (sort : SortRoutine) (s : state) (b : String) :
    ((∃ r ∈ s.resources, r.baseName = b) →
        ((s.resources.filter (fun r => r.baseName = b)).map Resource.counter).Nodup →
        mapGet (gatherPartitions sort s).ordered b =
          some (((s.resources.filter (fun r => r.baseName = b)).insertionSort counterLE).map
            Resource.Address)) ∧
      (∀ r₁ r₂, List.Sublist [r₁, r₂] s.resources → r₁.baseName = b → r₂.baseName = b →
        r₁.counter = r₂.counter →
        ∃ g, mapGet (gatherPartitions insertionSortRoutine s).ordered b = some g ∧
          List.Sublist [r₁.Address, r₂.Address] g) := by
  constructor
  · rintro ⟨r, hr, hrb⟩ hnd
    rw [gatherPartitions_ordered]
    have hmem : r ∈ s.resources.filter (fun r => decide (r.baseName = b)) :=
      List.mem_filter.mpr ⟨hr, by simpa using hrb⟩
    cases hf : s.resources.filter (fun r => decide (r.baseName = b)) with
    | nil => rw [hf] at hmem; simp at hmem
    | cons x xs =>
      rw [hf] at hnd
      simp only [List.isEmpty_cons, Bool.false_eq_true, if_false]
      rw [sort.run_eq_of_nodup insertionSortRoutine (x :: xs) hnd]
      rfl
  · intro r₁ r₂ hsub h₁ h₂ hc
    have hfsub : List.Sublist [r₁, r₂] (s.resources.filter (fun r => decide (r.baseName = b))) := by
      have := hsub.filter (fun r => decide (r.baseName = b))
      simpa [List.filter_cons, h₁, h₂] using this
    have hsorted : List.Sublist [r₁, r₂]
        ((s.resources.filter (fun r => decide (r.baseName = b))).insertionSort counterLE) :=
      List.pair_sublist_insertionSort (le_of_eq hc) hfsub
    refine ⟨((s.resources.filter
      (fun r : Resource => decide (r.baseName = b))).insertionSort counterLE).map
        Resource.Address, ?_, hsorted.map Resource.Address⟩
    rw [gatherPartitions_ordered]
    have hmem : r₁ ∈ s.resources.filter (fun r => decide (r.baseName = b)) :=
      hfsub.subset (List.mem_cons_self _ _)
    cases hf : s.resources.filter (fun r => decide (r.baseName = b)) with
    | nil => rw [hf] at hmem; simp at hmem
    | cons x xs => rfl

theorem ordered_ties_witness :
    (∃ r ∈ exampleWeb.resources, r.baseName = "web") ∧
      ((exampleWeb.resources.filter (fun r => r.baseName = "web")).map Resource.counter).Nodup ∧
      mapGet (gatherPartitions shellSortRoutine exampleWeb).ordered "web" =
        some (((exampleWeb.resources.filter (fun r => r.baseName = "web")).insertionSort
          counterLE).map Resource.Address) :=
  ⟨by decide, by decide,
    (ordered_ties shellSortRoutine exampleWeb "web").1 (by decide) (by decide)⟩

/-- The example of C19 for the stable routine: on the seven resources of the counterexample the
insertion sort keeps `a0` before `a1`. -/
theorem ordered_ties_example :
    mapGet (gatherPartitions insertionSortRoutine exampleTies).ordered "web" =
      some ["a6", "a0", "a1", "a2", "a3", "a4", "a5"] := by
  decide

end TerraformInventory
